import Mathlib

/-! Shallow embedding of the delete-relaxation operator-counting constraint
generator (Rankooh and Rintanen encoding) from
`src/search/operator_counting/delete_relaxation_constraints_rr.cc`,
together with proofs about the vertex elimination graph, the LP model
construction and the per-state update routine. -/

namespace DownwardRR

/-- A fact of a SAS-plus planning task: a pair of a variable index and a
value index, mirroring `FactPair` from the code base. -/
structure FactPair where
  var : Nat
  value : Nat
deriving DecidableEq, Repr

/-- An operator of the task: its precondition facts and its effect facts
(conditional effects are outside the model, as in the source file). -/
structure STOperator where
  preconditions : List FactPair
  effects : List FactPair
deriving DecidableEq, Repr

/-- A planning task: one domain size per variable, the operators, and the
goal facts.  This models the read-only `TaskProxy` interface the source
queries. -/
structure STask where
  domains : List Nat
  operators : List STOperator
  goals : List FactPair
deriving DecidableEq, Repr

/-- Operator with a given id (operators are identified by their position,
as `op.get_id()` in the source). -/
def STask.get_op (task : STask) (i : Nat) : STOperator :=
  task.operators.getD i ⟨[], []⟩

/-- The operator ids, in iteration order of `task_proxy.get_operators()`. -/
def op_ids (task : STask) : List Nat :=
  List.range task.operators.length

/-- All facts of the task, enumerated variable by variable and value by
value: the iteration order of the double loop in `initialize_queue`. -/
def STask.facts (task : STask) : List FactPair :=
  (List.range task.domains.length).flatMap (fun var =>
    (List.range (task.domains.getD var 0)).map (fun value => ⟨var, value⟩))

/-- A node of the vertex elimination graph (`VEGraph::Node`).  The C++
`in_degree` field is uninitialized until the first `push_fact`; we default
it to 0, and `initialize_queue` sets it before the first `pop_fact`. -/
structure Node where
  predecessors : List FactPair := []
  successors : List FactPair := []
  is_eliminated : Bool := false
  in_degree : Nat := 0
deriving DecidableEq, Repr

/-- State of `VEGraph`: nodes indexed by variable and value, the delta
triples, the edge set (kept as an insertion-ordered duplicate-free list,
modelling `utils::HashSet` plus its membership test), and the elimination
queue. -/
structure VEGraph where
  nodes : List (List Node)
  delta : List (FactPair × FactPair × FactPair)
  edges : List (FactPair × FactPair)
  elimination_queue : List (Nat × FactPair)
deriving DecidableEq, Repr

def VEGraph.get_node (g : VEGraph) (fact : FactPair) : Node :=
  (g.nodes.getD fact.var []).getD fact.value {}

/-- Write a node back at position `fact` (the effect of mutating through the
reference returned by the C++ `get_node`).  Out-of-range writes are a no-op
(the C++ code never performs them on well-formed tasks). -/
def VEGraph.set_node (g : VEGraph) (fact : FactPair) (n : Node) : VEGraph :=
  { g with nodes := g.nodes.set fact.var ((g.nodes.getD fact.var []).set fact.value n) }

/-- `VEGraph::add_edge`: insert the edge and update the adjacency lists
only if the pair is not yet present. -/
def VEGraph.add_edge (g : VEGraph) (from_fact to_fact : FactPair) : VEGraph :=
  if (from_fact, to_fact) ∈ g.edges then g
  else
    let g1 := g.set_node from_fact
      { g.get_node from_fact with
        successors := (g.get_node from_fact).successors ++ [to_fact] }
    let g2 := g1.set_node to_fact
      { g1.get_node to_fact with
        predecessors := (g1.get_node to_fact).predecessors ++ [from_fact] }
    { g2 with edges := g2.edges ++ [(from_fact, to_fact)] }

/-- `VEGraph::push_fact`: recompute the key of a non-eliminated fact as its
in-degree over non-eliminated predecessors, store it in the node and insert
an entry into the elimination queue. -/
def VEGraph.push_fact (g : VEGraph) (fact : FactPair) : VEGraph :=
  let node := g.get_node fact
  if node.is_eliminated then g
  else
    let in_degree :=
      (node.predecessors.filter (fun p => !(g.get_node p).is_eliminated)).length
    let g1 := g.set_node fact { node with in_degree := in_degree }
    { g1 with elimination_queue := g1.elimination_queue ++ [(in_degree, fact)] }

/-- Modelled from the spec: the priority queue type
(`priority_queues::AdaptiveQueue` from `algorithms/priority_queues.h`) is
not among the given source files.  The spec describes it as a queue of
`(key, fact)` entries extracted in order of minimal key, with ties broken
by insertion order.  `queue_pop_min` removes the earliest-inserted entry
among those of minimal key and returns it with the remaining entries. -/
def queue_pop_min :
    List (Nat × FactPair) → Option ((Nat × FactPair) × List (Nat × FactPair))
  | [] => none
  | e :: es =>
    match queue_pop_min es with
    | none => some (e, es)
    | some (m, rest) => if e.1 ≤ m.1 then some (e, es) else some (m, e :: rest)

/-- Body of `VEGraph::pop_fact`, structurally recursive on a fuel argument;
each iteration removes one queue entry, so `fuel = queue length` makes the
fuel case unreachable and the function agree with the C++ loop. -/
def VEGraph.pop_fact_go : Nat → VEGraph → Option FactPair × VEGraph
  | 0, g => (none, g)
  | fuel + 1, g =>
    match queue_pop_min g.elimination_queue with
    | none => (none, g)
    | some ((key, fact), rest) =>
      let g1 := { g with elimination_queue := rest }
      if (g1.get_node fact).in_degree = key then (some fact, g1)
      else VEGraph.pop_fact_go fuel g1

/-- `VEGraph::pop_fact`: pop entries until one is found whose key equals the
node's current `in_degree` (lazy deletion of stale entries); return it, or
`none` once the queue is exhausted. -/
def VEGraph.pop_fact (g : VEGraph) : Option FactPair × VEGraph :=
  VEGraph.pop_fact_go g.elimination_queue.length g

/-- `VEGraph::eliminate`: collect shortcut candidates over non-eliminated
predecessors and successors, mark the fact eliminated, add the shortcut
edges while recording delta triples, then push the (current) non-eliminated
successors back into the queue with fresh keys. -/
def VEGraph.eliminate (g : VEGraph) (fact : FactPair) : VEGraph :=
  let node := g.get_node fact
  let new_shortcuts :=
    (node.predecessors.filter (fun p => !(g.get_node p).is_eliminated)).flatMap
      (fun predecessor =>
        (node.successors.filter (fun s => !(g.get_node s).is_eliminated)).filterMap
          (fun successor =>
            if (predecessor, successor) ∈ g.edges then none
            else some (predecessor, fact, successor)))
  let g1 := g.set_node fact { node with is_eliminated := true }
  let g2 := new_shortcuts.foldl (fun g sc =>
    let g' := g.add_edge sc.1 sc.2.2
    { g' with delta := g'.delta ++ [sc] }) g1
  (g2.get_node fact).successors.foldl (fun g successor =>
    if (g.get_node successor).is_eliminated then g
    else g.push_fact successor) g2

/-- `VEGraph::construct_task_graph`: one node per fact; an edge from every
precondition to every distinct effect of each operator. -/
def VEGraph.construct_task_graph (task : STask) : VEGraph :=
  let g0 : VEGraph :=
    { nodes := task.domains.map (fun d => List.replicate d {})
      delta := []
      edges := []
      elimination_queue := [] }
  task.operators.foldl (fun g op =>
    op.preconditions.foldl (fun g pre =>
      op.effects.foldl (fun g eff =>
        if pre ≠ eff then g.add_edge pre eff else g) g) g) g0

/-- `VEGraph::initialize_queue`: push every fact of the task. -/
def VEGraph.initialize_queue (task : STask) (g : VEGraph) : VEGraph :=
  task.facts.foldl (fun g f => g.push_fact f) g

/-! Quantities used as the termination measure of the elimination loop, and
the supporting lemmas for that termination argument.  They precede
`run_elimination` because its `termination_by` clause needs them. -/

/-- Whether a fact addresses an actual node of the graph. -/
def VEGraph.in_range (g : VEGraph) (f : FactPair) : Prop :=
  f.var < g.nodes.length ∧ f.value < (g.nodes.getD f.var []).length

instance (g : VEGraph) (f : FactPair) : Decidable (g.in_range f) :=
  inferInstanceAs (Decidable (_ ∧ _))

/-- Number of non-eliminated nodes of the graph. -/
def VEGraph.countNonElim (g : VEGraph) : Nat :=
  (g.nodes.map (fun row => row.countP (fun n => !n.is_eliminated))).sum

/-- Number of queue entries whose fact is already eliminated. -/
def VEGraph.elimEntries (g : VEGraph) : Nat :=
  g.elimination_queue.countP (fun e => (g.get_node e.2).is_eliminated)

/-- Lengths of the per-variable node rows (invariant under all graph
mutations, which only replace nodes in place). -/
def VEGraph.profile (g : VEGraph) : List Nat := g.nodes.map List.length

theorem set_getD_self {α : Type} (l : List α) (i : Nat) (d : α) :
    l.set i (l.getD i d) = l := by
  induction l generalizing i with
  | nil => simp
  | cons a as ih =>
    cases i with
    | zero => simp
    | succ n =>
      have := ih n
      simp only [List.getD_cons_succ, List.set_cons_succ, this]

theorem getD_set_ne {α : Type} (l : List α) {i j : Nat} (a : α) (d : α)
    (h : i ≠ j) : (l.set i a).getD j d = l.getD j d := by
  simp [List.getD_eq_getElem?_getD, List.getElem?_set_ne h]

theorem getD_set_self {α : Type} (l : List α) {i : Nat} (a : α) (d : α)
    (h : i < l.length) : (l.set i a).getD i d = a := by
  simp [List.getD_eq_getElem?_getD, List.getElem?_set_self, h]

theorem countP_set {α : Type} (p : α → Bool) (l : List α) (i : Nat) (a : α)
    (d : α) (h : i < l.length) :
    (l.set i a).countP p + (if p (l.getD i d) then 1 else 0)
      = l.countP p + (if p a then 1 else 0) := by
  induction l generalizing i with
  | nil => simp at h
  | cons x xs ih =>
    cases i with
    | zero => simp [List.countP_cons]; omega
    | succ n =>
      have hn : n < xs.length := by simpa using h
      have := ih n hn
      simp only [List.set_cons_succ, List.countP_cons, List.getD_cons_succ]
      omega

theorem sum_map_set {α : Type} (f : α → Nat) (l : List α) (i : Nat) (a : α)
    (d : α) (h : i < l.length) :
    ((l.set i a).map f).sum + f (l.getD i d) = (l.map f).sum + f a := by
  induction l generalizing i with
  | nil => simp at h
  | cons x xs ih =>
    cases i with
    | zero => simp; omega
    | succ n =>
      have hn : n < xs.length := by simpa using h
      have := ih n hn
      simp only [List.set_cons_succ, List.map_cons, List.sum_cons,
        List.getD_cons_succ]
      omega

theorem get_node_oob (g : VEGraph) (f : FactPair) (h : ¬g.in_range f) :
    g.get_node f = {} := by
  unfold VEGraph.in_range at h
  push_neg at h
  unfold VEGraph.get_node
  rcases Nat.lt_or_ge f.var g.nodes.length with hv | hv
  · have := h hv
    rw [List.getD_eq_getElem?_getD (l := g.nodes.getD f.var []),
      List.getElem?_eq_none (by omega)]
    rfl
  · rw [List.getD_eq_getElem?_getD (l := g.nodes),
      List.getElem?_eq_none (by omega)]
    rfl

theorem set_node_oob (g : VEGraph) (f : FactPair) (n : Node)
    (h : ¬g.in_range f) : g.set_node f n = g := by
  unfold VEGraph.in_range at h
  push_neg at h
  unfold VEGraph.set_node
  rcases Nat.lt_or_ge f.var g.nodes.length with hv | hv
  · have hval := h hv
    rw [List.set_eq_of_length_le (l := g.nodes.getD f.var []) (by omega),
      set_getD_self]
  · rw [List.set_eq_of_length_le (by omega)]

theorem set_node_get_node_self (g : VEGraph) (f : FactPair) :
    g.set_node f (g.get_node f) = g := by
  unfold VEGraph.set_node VEGraph.get_node
  rw [set_getD_self, set_getD_self]

theorem get_node_set_node_self (g : VEGraph) (f : FactPair) (n : Node)
    (h : g.in_range f) : (g.set_node f n).get_node f = n := by
  obtain ⟨hv, hval⟩ := h
  unfold VEGraph.set_node VEGraph.get_node
  simp only
  rw [getD_set_self _ _ _ hv, getD_set_self _ _ _ hval]

theorem get_node_set_node_ne (g : VEGraph) (f f' : FactPair) (n : Node)
    (h : f' ≠ f) : (g.set_node f n).get_node f' = g.get_node f' := by
  unfold VEGraph.set_node VEGraph.get_node
  simp only
  rcases eq_or_ne f'.var f.var with hv | hv
  · have hval : f.value ≠ f'.value := by
      intro hcon
      exact h (by cases f; cases f'; simp_all)
    rw [hv]
    rcases Nat.lt_or_ge f.var g.nodes.length with hlt | hge
    · rw [getD_set_self _ _ _ hlt, getD_set_ne _ _ _ hval]
    · rw [List.set_eq_of_length_le hge]
  · rw [getD_set_ne _ _ _ (Ne.symm hv)]

theorem proj_set_node {β : Type} (π : Node → β) (g : VEGraph) (f : FactPair)
    (n : Node) (h : π n = π (g.get_node f)) (f' : FactPair) :
    π ((g.set_node f n).get_node f') = π (g.get_node f') := by
  rcases eq_or_ne f' f with rfl | hne
  · by_cases hr : g.in_range f'
    · rw [get_node_set_node_self _ _ _ hr, h]
    · rw [set_node_oob _ _ _ hr]
  · rw [get_node_set_node_ne _ _ _ _ hne]

theorem getD_map_length (l : List (List Node)) (i : Nat) :
    (l.map List.length).getD i 0 = (l.getD i []).length := by
  rcases Nat.lt_or_ge i l.length with h | h
  · rw [List.getD_eq_getElem _ _ (by simpa using h), List.getD_eq_getElem _ _ h,
      List.getElem_map]
  · have h1 : (l.map List.length).length ≤ i := by simpa using h
    rw [List.getD_eq_default _ _ h1, List.getD_eq_default _ _ h]
    rfl

theorem in_range_iff (g : VEGraph) (f : FactPair) :
    g.in_range f ↔ f.var < g.profile.length ∧ f.value < g.profile.getD f.var 0 := by
  unfold VEGraph.in_range VEGraph.profile
  rw [List.length_map, getD_map_length]

theorem profile_set_node (g : VEGraph) (f : FactPair) (n : Node) :
    (g.set_node f n).profile = g.profile := by
  unfold VEGraph.set_node VEGraph.profile
  simp only
  rcases Nat.lt_or_ge f.var g.nodes.length with hv | hv
  · rw [List.map_set]
    have hlen : (((g.nodes.getD f.var []).set f.value n).length : Nat)
        = (g.nodes.getD f.var []).length := List.length_set _ _ _
    rw [hlen, ← getD_map_length, set_getD_self]
  · rw [List.set_eq_of_length_le hv]

theorem countNonElim_set_node_eq (g : VEGraph) (f : FactPair) (n : Node)
    (h : n.is_eliminated = (g.get_node f).is_eliminated) :
    (g.set_node f n).countNonElim = g.countNonElim := by
  by_cases hr : g.in_range f
  · obtain ⟨hv, hval⟩ := hr
    unfold VEGraph.set_node VEGraph.countNonElim
    simp only
    have h1 := sum_map_set (fun row => row.countP (fun n => !n.is_eliminated))
      g.nodes f.var ((g.nodes.getD f.var []).set f.value n) [] hv
    have h2 := countP_set (fun n => !n.is_eliminated)
      (g.nodes.getD f.var []) f.value n {} hval
    have hgd : ((g.nodes.getD f.var []).getD f.value {} : Node) = g.get_node f := rfl
    simp only at h1 h2
    rw [hgd] at h2
    have hif : (if (!n.is_eliminated) = true then (1 : Nat) else 0)
        = (if (!(g.get_node f).is_eliminated) = true then 1 else 0) := by rw [h]
    omega
  · rw [set_node_oob g f n hr]

theorem countNonElim_set_node_lt (g : VEGraph) (f : FactPair) (n : Node)
    (hr : g.in_range f) (hold : (g.get_node f).is_eliminated = false)
    (hnew : n.is_eliminated = true) :
    (g.set_node f n).countNonElim < g.countNonElim := by
  obtain ⟨hv, hval⟩ := hr
  unfold VEGraph.set_node VEGraph.countNonElim
  simp only
  have h1 := sum_map_set (fun row => row.countP (fun n => !n.is_eliminated))
    g.nodes f.var ((g.nodes.getD f.var []).set f.value n) [] hv
  have h2 := countP_set (fun n => !n.is_eliminated)
    (g.nodes.getD f.var []) f.value n {} hval
  have hgd : ((g.nodes.getD f.var []).getD f.value {} : Node) = g.get_node f := rfl
  simp only at h1 h2
  rw [hgd] at h2
  have ha : (if (!(g.get_node f).is_eliminated) = true then (1 : Nat) else 0) = 1 := by
    rw [hold]; decide
  have hb : (if (!n.is_eliminated) = true then (1 : Nat) else 0) = 0 := by
    rw [hnew]; decide
  omega

theorem elimEntries_congr (g g' : VEGraph)
    (hq : g'.elimination_queue = g.elimination_queue)
    (hfl : ∀ f, (g'.get_node f).is_eliminated = (g.get_node f).is_eliminated) :
    g'.elimEntries = g.elimEntries := by
  unfold VEGraph.elimEntries
  rw [hq]
  exact List.countP_congr (fun e _ => by rw [hfl])

theorem two_writes_spec (g : VEGraph) (a b : FactPair) (n1 n2 : Node)
    (h1f : n1.is_eliminated = (g.get_node a).is_eliminated)
    (h1d : n1.in_degree = (g.get_node a).in_degree)
    (h2f : n2.is_eliminated = ((g.set_node a n1).get_node b).is_eliminated)
    (h2d : n2.in_degree = ((g.set_node a n1).get_node b).in_degree) :
    ((g.set_node a n1).set_node b n2).profile = g.profile ∧
    (∀ f, (((g.set_node a n1).set_node b n2).get_node f).is_eliminated
      = (g.get_node f).is_eliminated) ∧
    (∀ f, (((g.set_node a n1).set_node b n2).get_node f).in_degree
      = (g.get_node f).in_degree) ∧
    ((g.set_node a n1).set_node b n2).countNonElim = g.countNonElim := by
  refine ⟨?_, fun f => ?_, fun f => ?_, ?_⟩
  · rw [profile_set_node, profile_set_node]
  · rw [proj_set_node Node.is_eliminated _ b n2 h2f,
      proj_set_node Node.is_eliminated _ a n1 h1f]
  · rw [proj_set_node Node.in_degree _ b n2 h2d,
      proj_set_node Node.in_degree _ a n1 h1d]
  · rw [countNonElim_set_node_eq _ _ _ h2f, countNonElim_set_node_eq _ _ _ h1f]

theorem add_edge_spec (g : VEGraph) (a b : FactPair) :
    (g.add_edge a b).elimination_queue = g.elimination_queue ∧
    (g.add_edge a b).delta = g.delta ∧
    (g.add_edge a b).profile = g.profile ∧
    (∀ f, ((g.add_edge a b).get_node f).is_eliminated
      = (g.get_node f).is_eliminated) ∧
    (∀ f, ((g.add_edge a b).get_node f).in_degree = (g.get_node f).in_degree) ∧
    ((g.add_edge a b).edges = g.edges ∨
      ((a, b) ∉ g.edges ∧ (g.add_edge a b).edges = g.edges ++ [(a, b)])) ∧
    (a, b) ∈ (g.add_edge a b).edges ∧
    (g.add_edge a b).countNonElim = g.countNonElim := by
  by_cases hmem : (a, b) ∈ g.edges
  · simp [VEGraph.add_edge, hmem]
  · simp only [VEGraph.add_edge, if_neg hmem]
    obtain ⟨hp, hfl, hdeg, hcnt⟩ := two_writes_spec g a b
      { g.get_node a with successors := (g.get_node a).successors ++ [b] }
      { (g.set_node a { g.get_node a with
            successors := (g.get_node a).successors ++ [b] }).get_node b with
        predecessors := ((g.set_node a { g.get_node a with
            successors := (g.get_node a).successors ++ [b] }).get_node
          b).predecessors ++ [a] }
      rfl rfl rfl rfl
    exact ⟨rfl, rfl, hp, hfl, hdeg, Or.inr ⟨hmem, rfl⟩, by simp, hcnt⟩

theorem get_node_qupd (g : VEGraph) (q : List (Nat × FactPair)) (f : FactPair) :
    ({ g with elimination_queue := q } : VEGraph).get_node f = g.get_node f := rfl

theorem push_fact_spec (g : VEGraph) (f : FactPair) :
    (g.push_fact f).edges = g.edges ∧
    (g.push_fact f).delta = g.delta ∧
    (g.push_fact f).profile = g.profile ∧
    (∀ f', ((g.push_fact f).get_node f').is_eliminated
      = (g.get_node f').is_eliminated) ∧
    (∀ f', ((g.push_fact f).get_node f').predecessors
      = (g.get_node f').predecessors) ∧
    (∀ f', ((g.push_fact f).get_node f').successors
      = (g.get_node f').successors) ∧
    (g.push_fact f).countNonElim = g.countNonElim ∧
    (g.push_fact f).elimEntries = g.elimEntries ∧
    ((g.push_fact f).elimination_queue = g.elimination_queue ∨
      ((g.get_node f).is_eliminated = false ∧
        (g.push_fact f).elimination_queue = g.elimination_queue
          ++ [(((g.push_fact f).get_node f).in_degree, f)])) := by
  by_cases hel : (g.get_node f).is_eliminated = true
  · have hg : g.push_fact f = g := by
      simp only [VEGraph.push_fact]
      rw [if_pos hel]
    rw [hg]
    exact ⟨rfl, rfl, rfl, fun _ => rfl, fun _ => rfl, fun _ => rfl, rfl, rfl,
      Or.inl rfl⟩
  · have hel' : (g.get_node f).is_eliminated = false := by
      simpa using hel
    have hq : (g.push_fact f).elimination_queue = g.elimination_queue
        ++ [(((g.get_node f).predecessors.filter
          (fun p => !(g.get_node p).is_eliminated)).length, f)] := by
      simp only [VEGraph.push_fact]
      rw [if_neg hel]
      rfl
    have hfl : ∀ f', ((g.push_fact f).get_node f').is_eliminated
        = (g.get_node f').is_eliminated := by
      intro f'
      simp only [VEGraph.push_fact]
      rw [if_neg hel]
      exact proj_set_node Node.is_eliminated g f
        (Node.mk (g.get_node f).predecessors (g.get_node f).successors
        (g.get_node f).is_eliminated
        ((g.get_node f).predecessors.filter
          (fun p => !(g.get_node p).is_eliminated)).length) rfl f'
    have hdeg : ((g.push_fact f).get_node f).in_degree
        = ((g.get_node f).predecessors.filter
          (fun p => !(g.get_node p).is_eliminated)).length := by
      simp only [VEGraph.push_fact]
      rw [if_neg hel]
      by_cases hr : g.in_range f
      · obtain ⟨hv, hval⟩ := hr
        show ((((g.nodes.set f.var _).getD f.var []).getD f.value {}
          : Node)).in_degree = _
        rw [getD_set_self _ _ _ hv, getD_set_self _ _ _ hval]
      · show (((g.set_node f _ : VEGraph).get_node f : Node)).in_degree = _
        rw [set_node_oob _ _ _ hr, get_node_oob _ _ hr]
        rfl
    refine ⟨?_, ?_, ?_, hfl, ?_, ?_, ?_, ?_, Or.inr ⟨hel', ?_⟩⟩
    · simp only [VEGraph.push_fact]
      rw [if_neg hel]
      rfl
    · simp only [VEGraph.push_fact]
      rw [if_neg hel]
      rfl
    · simp only [VEGraph.push_fact]
      rw [if_neg hel]
      exact profile_set_node g f _
    · intro f'
      simp only [VEGraph.push_fact]
      rw [if_neg hel]
      exact proj_set_node Node.predecessors g f
        (Node.mk (g.get_node f).predecessors (g.get_node f).successors
        (g.get_node f).is_eliminated
        ((g.get_node f).predecessors.filter
          (fun p => !(g.get_node p).is_eliminated)).length) rfl f'
    · intro f'
      simp only [VEGraph.push_fact]
      rw [if_neg hel]
      exact proj_set_node Node.successors g f
        (Node.mk (g.get_node f).predecessors (g.get_node f).successors
        (g.get_node f).is_eliminated
        ((g.get_node f).predecessors.filter
          (fun p => !(g.get_node p).is_eliminated)).length) rfl f'
    · simp only [VEGraph.push_fact]
      rw [if_neg hel]
      exact countNonElim_set_node_eq g f
        (Node.mk (g.get_node f).predecessors (g.get_node f).successors
        (g.get_node f).is_eliminated
        ((g.get_node f).predecessors.filter
          (fun p => !(g.get_node p).is_eliminated)).length) rfl
    · unfold VEGraph.elimEntries
      rw [hq, List.countP_append]
      have hc : List.countP
          (fun e => ((g.push_fact f).get_node e.2).is_eliminated)
          g.elimination_queue
          = List.countP (fun e => (g.get_node e.2).is_eliminated)
            g.elimination_queue :=
        List.countP_congr (fun e _ => by rw [hfl])
      have hone : List.countP
          (fun e => ((g.push_fact f).get_node e.2).is_eliminated)
          [(((g.get_node f).predecessors.filter
            (fun p => !(g.get_node p).is_eliminated)).length, f)] = 0 := by
        rw [List.countP_cons, List.countP_nil]
        have hx : ((g.push_fact f).get_node f).is_eliminated = false := by
          rw [hfl, hel']
        simp [hx]
      rw [hc, hone]
      omega
    · rw [hq, hdeg]

theorem shortcut_fold_spec (scs : List (FactPair × FactPair × FactPair))
    (g : VEGraph) :
    (scs.foldl (fun g sc =>
      let g' := g.add_edge sc.1 sc.2.2
      { g' with delta := g'.delta ++ [sc] }) g).elimination_queue
        = g.elimination_queue ∧
    (scs.foldl (fun g sc =>
      let g' := g.add_edge sc.1 sc.2.2
      { g' with delta := g'.delta ++ [sc] }) g).profile = g.profile ∧
    (∀ f, ((scs.foldl (fun g sc =>
      let g' := g.add_edge sc.1 sc.2.2
      { g' with delta := g'.delta ++ [sc] }) g).get_node f).is_eliminated
        = (g.get_node f).is_eliminated) ∧
    (scs.foldl (fun g sc =>
      let g' := g.add_edge sc.1 sc.2.2
      { g' with delta := g'.delta ++ [sc] }) g).countNonElim = g.countNonElim ∧
    (scs.foldl (fun g sc =>
      let g' := g.add_edge sc.1 sc.2.2
      { g' with delta := g'.delta ++ [sc] }) g).elimEntries = g.elimEntries ∧
    (∀ e ∈ g.edges, e ∈ (scs.foldl (fun g sc =>
      let g' := g.add_edge sc.1 sc.2.2
      { g' with delta := g'.delta ++ [sc] }) g).edges) := by
  induction scs generalizing g with
  | nil =>
    exact ⟨rfl, rfl, fun _ => rfl, rfl, rfl, fun e he => he⟩
  | cons sc rest ih =>
    rw [List.foldl_cons]
    obtain ⟨aq, ad, ap, afl, adeg, aed, amem, acnt⟩ := add_edge_spec g sc.1 sc.2.2
    obtain ⟨iq, ip, ifl, icnt, ient, imono⟩ :=
      ih { g.add_edge sc.1 sc.2.2 with delta := (g.add_edge sc.1 sc.2.2).delta ++ [sc] }
    have hq : ({ g.add_edge sc.1 sc.2.2 with
        delta := (g.add_edge sc.1 sc.2.2).delta ++ [sc] }
          : VEGraph).elimination_queue = g.elimination_queue := aq
    have hfl : ∀ f, (({ g.add_edge sc.1 sc.2.2 with
        delta := (g.add_edge sc.1 sc.2.2).delta ++ [sc] }
          : VEGraph).get_node f).is_eliminated = (g.get_node f).is_eliminated :=
      fun f => afl f
    refine ⟨by rw [iq, hq], by rw [ip]; exact ap, fun f => by rw [ifl, hfl],
      by rw [icnt]; exact acnt, ?_, ?_⟩
    · rw [ient]
      unfold VEGraph.elimEntries
      rw [hq]
      exact List.countP_congr (fun e _ => by rw [hfl])
    · intro e he
      refine imono e ?_
      show e ∈ (g.add_edge sc.1 sc.2.2).edges
      rcases aed with h | ⟨_, h⟩
      · rw [h]; exact he
      · rw [h]; exact List.mem_append_left _ he

theorem push_fold_spec (l : List FactPair) (g : VEGraph) :
    (l.foldl (fun g successor =>
      if (g.get_node successor).is_eliminated then g
      else g.push_fact successor) g).edges = g.edges ∧
    (l.foldl (fun g successor =>
      if (g.get_node successor).is_eliminated then g
      else g.push_fact successor) g).delta = g.delta ∧
    (l.foldl (fun g successor =>
      if (g.get_node successor).is_eliminated then g
      else g.push_fact successor) g).profile = g.profile ∧
    (∀ f, ((l.foldl (fun g successor =>
      if (g.get_node successor).is_eliminated then g
      else g.push_fact successor) g).get_node f).is_eliminated
        = (g.get_node f).is_eliminated) ∧
    (l.foldl (fun g successor =>
      if (g.get_node successor).is_eliminated then g
      else g.push_fact successor) g).countNonElim = g.countNonElim ∧
    (l.foldl (fun g successor =>
      if (g.get_node successor).is_eliminated then g
      else g.push_fact successor) g).elimEntries = g.elimEntries ∧
    (∃ ext, (l.foldl (fun g successor =>
      if (g.get_node successor).is_eliminated then g
      else g.push_fact successor) g).elimination_queue
        = g.elimination_queue ++ ext) := by
  induction l generalizing g with
  | nil =>
    exact ⟨rfl, rfl, rfl, fun _ => rfl, rfl, rfl, ⟨[], by simp⟩⟩
  | cons s rest ih =>
    rw [List.foldl_cons]
    by_cases hel : ((g.get_node s).is_eliminated : Bool) = true
    · rw [if_pos hel]
      exact ih g
    · rw [if_neg hel]
      obtain ⟨pe, pd, pp, pfl, ppre, psucc, pcnt, pent, pq⟩ := push_fact_spec g s
      obtain ⟨ie, idl, ip, ifl, icnt, ient, iext, ihq⟩ := ih (g.push_fact s)
      refine ⟨by rw [ie, pe], by rw [idl, pd], by rw [ip, pp],
        fun f => by rw [ifl, pfl], by rw [icnt, pcnt], by rw [ient, pent], ?_⟩
      rcases pq with hq | ⟨_, hq⟩
      · exact ⟨iext, by rw [ihq, hq]⟩
      · exact ⟨[(((g.push_fact s).get_node s).in_degree, s)] ++ iext,
          by rw [ihq, hq, List.append_assoc]⟩

theorem eliminate_oob (g : VEGraph) (fact : FactPair) (h : ¬g.in_range fact) :
    g.eliminate fact = g := by
  have hn : g.get_node fact = {} := get_node_oob g fact h
  simp only [VEGraph.eliminate, hn]
  rw [set_node_oob _ _ _ h]
  simp only [List.filter_nil, List.flatMap_nil, List.foldl_nil, hn]

theorem eliminate_elim_case (g : VEGraph) (fact : FactPair)
    (h : (g.get_node fact).is_eliminated = true) :
    (g.eliminate fact).countNonElim = g.countNonElim ∧
    (g.eliminate fact).elimEntries = g.elimEntries ∧
    (g.eliminate fact).elimination_queue.length
      ≥ g.elimination_queue.length := by
  have hnode : ({ g.get_node fact with is_eliminated := true } : Node)
      = g.get_node fact := by
    have := h
    cases hX : g.get_node fact
    simp_all
  have hmark : g.set_node fact { g.get_node fact with is_eliminated := true }
      = g := by
    rw [hnode, set_node_get_node_self]
  simp only [VEGraph.eliminate]
  rw [hmark]
  obtain ⟨sq, sp, sfl, scnt, sent, smono⟩ := shortcut_fold_spec
    (((g.get_node fact).predecessors.filter
      (fun p => !(g.get_node p).is_eliminated)).flatMap
      (fun predecessor =>
        ((g.get_node fact).successors.filter
          (fun s => !(g.get_node s).is_eliminated)).filterMap
          (fun successor =>
            if (predecessor, successor) ∈ g.edges then none
            else some (predecessor, fact, successor)))) g
  obtain ⟨pe, pd, pp, pfl, pcnt, pent, pext, phq⟩ := push_fold_spec _ _
  refine ⟨by rw [pcnt, scnt], by rw [pent, sent], ?_⟩
  rw [phq, sq, List.length_append]
  omega

theorem eliminate_nonelim_case (g : VEGraph) (fact : FactPair)
    (hr : g.in_range fact) (h : (g.get_node fact).is_eliminated = false) :
    (g.eliminate fact).countNonElim < g.countNonElim := by
  simp only [VEGraph.eliminate]
  have hmark : (g.set_node fact
      { g.get_node fact with is_eliminated := true }).countNonElim
      < g.countNonElim :=
    countNonElim_set_node_lt g fact _ hr h rfl
  obtain ⟨sq, sp, sfl, scnt, sent, smono⟩ := shortcut_fold_spec
    (((g.get_node fact).predecessors.filter
      (fun p => !(g.get_node p).is_eliminated)).flatMap
      (fun predecessor =>
        ((g.get_node fact).successors.filter
          (fun s => !(g.get_node s).is_eliminated)).filterMap
          (fun successor =>
            if (predecessor, successor) ∈ g.edges then none
            else some (predecessor, fact, successor))))
    (g.set_node fact { g.get_node fact with is_eliminated := true })
  obtain ⟨pe, pd, pp, pfl, pcnt, pent, pext, phq⟩ := push_fold_spec _ _
  rw [pcnt, scnt]
  exact hmark

theorem queue_pop_min_none (q : List (Nat × FactPair))
    (h : queue_pop_min q = none) : q = [] := by
  cases q with
  | nil => rfl
  | cons a as =>
    rw [queue_pop_min] at h
    rcases hm : queue_pop_min as with _ | ⟨m, rest⟩ <;> rw [hm] at h <;>
      dsimp only at h
    · simp at h
    · by_cases hle : a.1 ≤ m.1
      · rw [if_pos hle] at h
        simp at h
      · rw [if_neg hle] at h
        simp at h

theorem queue_pop_min_spec (q : List (Nat × FactPair)) (e : Nat × FactPair)
    (rest : List (Nat × FactPair)) (h : queue_pop_min q = some (e, rest)) :
    (∀ p : Nat × FactPair → Bool,
      rest.countP p + (if p e then 1 else 0) = q.countP p) ∧
    rest.length + 1 = q.length ∧
    (∀ x ∈ q, x = e ∨ x ∈ rest) := by
  induction q generalizing e rest with
  | nil => rw [queue_pop_min] at h; simp at h
  | cons a as ih =>
    rw [queue_pop_min] at h
    rcases hm : queue_pop_min as with _ | ⟨m, mrest⟩ <;> rw [hm] at h <;>
      dsimp only at h
    · have hnil := queue_pop_min_none as hm
      subst hnil
      simp only [Option.some.injEq, Prod.mk.injEq] at h
      obtain ⟨he, hrest⟩ := h
      subst he; subst hrest
      refine ⟨fun p => by rw [List.countP_cons], by simp, ?_⟩
      intro x hx
      simp at hx
      subst hx
      exact Or.inl rfl
    · by_cases hle : a.1 ≤ m.1
      · rw [if_pos hle] at h
        simp only [Option.some.injEq, Prod.mk.injEq] at h
        obtain ⟨he, hrest⟩ := h
        subst he; subst hrest
        refine ⟨fun p => by rw [List.countP_cons], by simp, ?_⟩
        intro x hx
        rcases List.mem_cons.mp hx with hx | hx
        · exact Or.inl hx
        · exact Or.inr hx
      · rw [if_neg hle] at h
        simp only [Option.some.injEq, Prod.mk.injEq] at h
        obtain ⟨he, hrest⟩ := h
        subst he; subst hrest
        obtain ⟨ic, il, im⟩ := ih m mrest hm
        refine ⟨fun p => ?_, by simp; omega, ?_⟩
        · have := ic p
          rw [List.countP_cons, List.countP_cons]
          omega
        · intro x hx
          rcases List.mem_cons.mp hx with hx | hx
          · subst hx
            exact Or.inr (List.mem_cons_self _ _)
          · rcases im x hx with hx' | hx'
            · exact Or.inl hx'
            · exact Or.inr (List.mem_cons_of_mem _ hx')

theorem pop_fact_go_some_spec (fuel : Nat) :
    ∀ (g : VEGraph) (f : FactPair) (g1 : VEGraph),
      VEGraph.pop_fact_go fuel g = (some f, g1) →
      g1.nodes = g.nodes ∧ g1.edges = g.edges ∧ g1.delta = g.delta ∧
      (∀ p : Nat × FactPair → Bool,
        g1.elimination_queue.countP p
          + (if p ((g.get_node f).in_degree, f) then 1 else 0)
          ≤ g.elimination_queue.countP p) ∧
      g1.elimination_queue.length < g.elimination_queue.length ∧
      (∀ x ∈ g.elimination_queue, x.1 = (g.get_node x.2).in_degree →
        x ∈ g1.elimination_queue ∨ x = ((g.get_node f).in_degree, f)) := by
  induction fuel with
  | zero =>
    intro g f g1 h
    rw [VEGraph.pop_fact_go] at h
    simp at h
  | succ n ih =>
    intro g f g1 h
    rw [VEGraph.pop_fact_go] at h
    rcases hm : queue_pop_min g.elimination_queue with _ | ⟨⟨key, fact⟩, rest⟩ <;>
      rw [hm] at h <;> dsimp only at h
    · simp at h
    · obtain ⟨hcount, hlen, hmem⟩ := queue_pop_min_spec _ _ _ hm
      by_cases hval : (({ g with elimination_queue := rest }
          : VEGraph).get_node fact).in_degree = key
      · rw [if_pos hval] at h
        simp only [Prod.mk.injEq, Option.some.injEq] at h
        obtain ⟨hf, hg1⟩ := h
        subst hf; subst hg1
        rw [get_node_qupd] at hval
        refine ⟨rfl, rfl, rfl, fun p => ?_, ?_, fun x hx hxv => ?_⟩
        · have := hcount p
          rw [hval]
          show rest.countP p + _ ≤ _
          omega
        · show rest.length < g.elimination_queue.length
          omega
        · rcases hmem x hx with hx' | hx'
          · right
            rw [hx', hval]
          · left
            exact hx'
      · rw [if_neg hval] at h
        obtain ⟨inodes, iedges, idelta, icount, ilen, imem⟩ := ih _ _ _ h
        rw [get_node_qupd] at hval
        have hnodes : g1.nodes = g.nodes := by rw [inodes]
        have hget : ∀ x, ({ g with elimination_queue := rest }
            : VEGraph).get_node x = g.get_node x := fun _ => rfl
        refine ⟨hnodes, by rw [iedges], by rw [idelta], fun p => ?_, ?_, ?_⟩
        · have h1 := icount p
          have h2 := hcount p
          rw [hget] at h1
          have h3 : ({ g with elimination_queue := rest }
              : VEGraph).elimination_queue.countP p = rest.countP p := rfl
          rw [h3] at h1
          omega
        · have h3 : ({ g with elimination_queue := rest }
              : VEGraph).elimination_queue.length = rest.length := rfl
          rw [h3] at ilen
          omega
        · intro x hx hxv
          rcases hmem x hx with hx' | hx'
          · exfalso
            apply hval
            rw [hx'] at hxv
            exact hxv.symm
          · have := imem x hx'
            rw [hget] at this
            exact this hxv

theorem pop_fact_go_none_spec (fuel : Nat) :
    ∀ (g : VEGraph) (g1 : VEGraph),
      g.elimination_queue.length ≤ fuel →
      VEGraph.pop_fact_go fuel g = (none, g1) →
      g1 = { g with elimination_queue := [] } ∧
      (∀ x ∈ g.elimination_queue, x.1 ≠ (g.get_node x.2).in_degree) := by
  induction fuel with
  | zero =>
    intro g g1 hfuel h
    have hq : g.elimination_queue = [] := by
      cases hx : g.elimination_queue with
      | nil => rfl
      | cons a as => rw [hx] at hfuel; simp at hfuel
    rw [VEGraph.pop_fact_go] at h
    simp only [Prod.mk.injEq] at h
    refine ⟨?_, by rw [hq]; simp⟩
    rw [← h.2, ← hq]
  | succ n ih =>
    intro g g1 hfuel h
    rw [VEGraph.pop_fact_go] at h
    rcases hm : queue_pop_min g.elimination_queue with _ | ⟨⟨key, fact⟩, rest⟩ <;>
      rw [hm] at h <;> dsimp only at h
    · have hq := queue_pop_min_none _ hm
      simp only [Prod.mk.injEq] at h
      refine ⟨?_, by rw [hq]; simp⟩
      rw [← h.2, ← hq]
    · obtain ⟨hcount, hlen, hmem⟩ := queue_pop_min_spec _ _ _ hm
      by_cases hval : (({ g with elimination_queue := rest }
          : VEGraph).get_node fact).in_degree = key
      · rw [if_pos hval] at h
        simp at h
      · rw [if_neg hval] at h
        rw [get_node_qupd] at hval
        have hfuel2 : ({ g with elimination_queue := rest }
            : VEGraph).elimination_queue.length ≤ n := by
          show rest.length ≤ n
          omega
        obtain ⟨ig1, iinv⟩ := ih { g with elimination_queue := rest } g1 hfuel2 h
        refine ⟨ig1, fun x hx => ?_⟩
        rcases hmem x hx with hx' | hx'
        · rw [hx']
          intro hcon
          exact hval hcon.symm
        · exact iinv x hx'

theorem measure_decreases (g : VEGraph) (fact : FactPair) (g1 : VEGraph)
    (h : g.pop_fact = (some fact, g1)) :
    (g1.eliminate fact).countNonElim < g.countNonElim ∨
    ((g1.eliminate fact).countNonElim = g.countNonElim ∧
      ((g1.eliminate fact).elimEntries < g.elimEntries ∨
       ((g1.eliminate fact).elimEntries = g.elimEntries ∧
        (g1.eliminate fact).elimination_queue.length
          < g.elimination_queue.length))) := by
  obtain ⟨hnodes, hedges, hdelta, hcount, hlen, hsurv⟩ :=
    pop_fact_go_some_spec _ _ _ _ h
  have hget : ∀ x, g1.get_node x = g.get_node x := by
    intro x
    unfold VEGraph.get_node
    rw [hnodes]
  have hcnt1 : g1.countNonElim = g.countNonElim := by
    unfold VEGraph.countNonElim
    rw [hnodes]
  have hent1 : g1.elimEntries
      = g1.elimination_queue.countP
        (fun e => (g.get_node e.2).is_eliminated) := by
    unfold VEGraph.elimEntries
    exact List.countP_congr (fun e _ => by rw [hget])
  by_cases helim : (g1.get_node fact).is_eliminated = true
  · -- re-elimination of an already eliminated fact
    obtain ⟨ecnt, eent, _⟩ := eliminate_elim_case g1 fact helim
    right
    refine ⟨by rw [ecnt, hcnt1], Or.inl ?_⟩
    rw [eent, hent1]
    have := hcount (fun e => (g.get_node e.2).is_eliminated)
    have hfact : (g.get_node fact).is_eliminated = true := by
      rw [← hget]; exact helim
    unfold VEGraph.elimEntries
    simp only [hfact, if_pos] at this
    omega
  · have helim' : (g1.get_node fact).is_eliminated = false := by
      simpa using helim
    by_cases hr : g1.in_range fact
    · left
      have := eliminate_nonelim_case g1 fact hr helim'
      omega
    · right
      rw [eliminate_oob g1 fact hr]
      have hle : g1.elimEntries ≤ g.elimEntries := by
        rw [hent1]
        have := hcount (fun e => (g.get_node e.2).is_eliminated)
        unfold VEGraph.elimEntries
        omega
      rcases Nat.lt_or_ge g1.elimEntries g.elimEntries with hlt | hge
      · exact ⟨hcnt1, Or.inl hlt⟩
      · exact ⟨hcnt1, Or.inr ⟨by omega, hlen⟩⟩

/-- The elimination loop of the `VEGraph` constructor
(`while (optional<FactPair> fact = pop_fact()) eliminate(*fact);`).
The first component records, as an observer, the facts returned by
`pop_fact` in order; the second component is the resulting graph.
Termination is by the lexicographic measure
(non-eliminated nodes, queue entries for eliminated facts, queue length). -/
def VEGraph.run_elimination (g : VEGraph) : List FactPair × VEGraph :=
  match h : g.pop_fact with
  | (none, g1) => ([], g1)
  | (some fact, g1) =>
    let r := (g1.eliminate fact).run_elimination
    (fact :: r.1, r.2)
termination_by (g.countNonElim, g.elimEntries, g.elimination_queue.length)
decreasing_by
  rcases measure_decreases g fact g1 h with h1 | ⟨h1, h2 | ⟨h2, h3⟩⟩
  · exact Prod.Lex.left _ _ h1
  · rw [h1]
    exact Prod.Lex.right _ (Prod.Lex.left _ _ h2)
  · rw [h1, h2]
    exact Prod.Lex.right _ (Prod.Lex.right _ h3)

/-- The `VEGraph` constructor: build the task graph, initialize the queue,
run the elimination loop.  Returns the pop trace together with the graph. -/
def VEGraph.make (task : STask) : List FactPair × VEGraph :=
  ((VEGraph.construct_task_graph task).initialize_queue task).run_elimination

/-- The graph produced by the `VEGraph` constructor. -/
def VEGraph.final (task : STask) : VEGraph := (VEGraph.make task).2

/-- Fuel-bounded executable twin of `run_elimination`; `none` when the fuel
runs out before the loop finishes. -/
def VEGraph.run_elimination_fuel : Nat → VEGraph → Option (List FactPair × VEGraph)
  | 0, _ => none
  | fuel + 1, g =>
    match g.pop_fact with
    | (none, g1) => some ([], g1)
    | (some fact, g1) =>
      (VEGraph.run_elimination_fuel fuel (g1.eliminate fact)).map
        (fun r => (fact :: r.1, r.2))

theorem run_elimination_none (g : VEGraph) (g1 : VEGraph)
    (hp : g.pop_fact = (none, g1)) : g.run_elimination = ([], g1) := by
  rw [VEGraph.run_elimination]
  split
  · next g1' heq =>
    rw [hp] at heq
    cases heq
    rfl
  · next fact g1' heq =>
    rw [hp] at heq
    cases heq

theorem run_elimination_some (g : VEGraph) (fact : FactPair) (g1 : VEGraph)
    (hp : g.pop_fact = (some fact, g1)) :
    g.run_elimination = (fact :: (g1.eliminate fact).run_elimination.1,
      (g1.eliminate fact).run_elimination.2) := by
  rw [VEGraph.run_elimination]
  split
  · next g1' heq =>
    rw [hp] at heq
    cases heq
  · next fact' g1' heq =>
    rw [hp] at heq
    cases heq
    rfl

theorem run_elimination_fuel_eq (fuel : Nat) :
    ∀ (g : VEGraph) (r : List FactPair × VEGraph),
      VEGraph.run_elimination_fuel fuel g = some r →
      g.run_elimination = r := by
  induction fuel with
  | zero =>
    intro g r h
    rw [VEGraph.run_elimination_fuel] at h
    simp at h
  | succ n ih =>
    intro g r h
    rw [VEGraph.run_elimination_fuel] at h
    rcases hp : g.pop_fact with ⟨o, g1⟩
    rcases o with _ | fact <;> rw [hp] at h <;> dsimp only at h
    · simp only [Option.some.injEq] at h
      rw [run_elimination_none g g1 hp, ← h]
    · rcases hr : VEGraph.run_elimination_fuel n (g1.eliminate fact) with _ | r'
      · rw [hr, Option.map_none'] at h
        exact Option.noConfusion h
      · rw [hr, Option.map_some'] at h
        have h2 := Option.some.inj h
        rw [run_elimination_some g fact g1 hp, ih _ _ hr, ← h2]

/-! The LP model layer: vars, constraints, the lookup tables, the
constraint generator object and its `initialize_constraints` and
`update_constraints` operations. -/

/-- A bound of an LP constraint (the C++ code uses `0`, `1`,
`lp.get_infinity()` and its negation). -/
inductive LPBound where
  | neg_infinity
  | finite (val : Int)
  | infinity
deriving DecidableEq, Repr

/-- An LP variable: lower bound, upper bound, objective coefficient,
integrality flag (the arguments of `vars.emplace_back`). -/
structure LPVariable where
  lower_bound : Int
  upper_bound : Int
  objective_coefficient : Int
  is_integer : Bool
deriving DecidableEq, Repr

instance : Inhabited LPVariable := ⟨⟨0, 0, 0, false⟩⟩

/-- An LP constraint row: bounds plus a sparse coefficient list;
`lp::LPConstraint::insert` appends a coefficient. -/
structure LPConstraint where
  lower_bound : LPBound
  upper_bound : LPBound
  entries : List (Nat × Int)
deriving DecidableEq, Repr

instance : Inhabited LPConstraint := ⟨⟨.finite 0, .finite 0, []⟩⟩

def LPConstraint.insert (c : LPConstraint) (idx : Nat) (coefficient : Int) :
    LPConstraint :=
  { c with entries := c.entries ++ [(idx, coefficient)] }

/-- `add_lp_variables`: append `count` vars, recording their indices. -/
def add_lp_variables (count : Nat) (vars : List LPVariable)
    (indices : List Nat) (lower upper objective : Int) (is_integer : Bool) :
    List LPVariable × List Nat :=
  (List.range count).foldl (fun vi _ =>
    (vi.1 ++ [⟨lower, upper, objective, is_integer⟩], vi.2 ++ [vi.1.length]))
    (vars, indices)

/-- Association list lookup, modelling `std::unordered_map::find`/`at`
(`at` throwing on a missing key is modelled by `Option`). -/
def assocFind {α : Type} [DecidableEq α] (m : List (α × Nat)) (k : α) :
    Option Nat :=
  match m with
  | [] => none
  | (k', v) :: rest => if k' = k then some v else assocFind rest k

/-- `std::unordered_map::emplace`: insert only if the key is absent. -/
def assocEmplace {α : Type} [DecidableEq α] (m : List (α × Nat)) (k : α)
    (v : Nat) : List (α × Nat) :=
  match assocFind m k with
  | some _ => m
  | none => m ++ [(k, v)]

/-- The lookup tables `lp_var_id_f_defined`, `lp_var_id_f_maps_to`,
`lp_var_id_edge` built by `create_auxiliary_variables` (member vars
of the constraint generator in the source, passed around explicitly here,
as they are only needed while the model is built). -/
structure VarMaps where
  lp_var_id_f_defined : List (List Nat) := []
  lp_var_id_f_maps_to : List ((Nat × Nat × Nat) × Nat) := []
  lp_var_id_edge : List ((FactPair × FactPair) × Nat) := []
deriving DecidableEq, Repr

/-- `get_var_f_defined` (vector indexing, in range on well-formed tasks). -/
def get_var_f_defined (m : VarMaps) (f : FactPair) : Nat :=
  (m.lp_var_id_f_defined.getD f.var []).getD f.value 0

/-- `get_var_f_maps_to` (`unordered_map::at`, `none` models the throw). -/
def get_var_f_maps_to (m : VarMaps) (f : FactPair) (op_id : Nat) : Option Nat :=
  assocFind m.lp_var_id_f_maps_to (f.var, f.value, op_id)

/-- `create_auxiliary_variables`: the `f_p` variable block per task
variable, then one `f_{p,a}` variable per operator effect, then one
`e_{i,j}` variable per edge of the elimination graph. -/
def create_auxiliary_variables (task : STask) (use_integer_vars : Bool)
    (vars : List LPVariable) (ve_graph : VEGraph) :
    VarMaps × List LPVariable :=
  let mv : VarMaps × List LPVariable :=
    (List.range task.domains.length).foldl (fun mv var_id =>
      let vi := add_lp_variables (task.domains.getD var_id 0) mv.2 [] 0 1 0
        use_integer_vars
      ({ mv.1 with lp_var_id_f_defined := mv.1.lp_var_id_f_defined ++ [vi.2] },
       vi.1))
      ({}, vars)
  let mv := (op_ids task).foldl (fun mv i =>
    (task.get_op i).effects.foldl (fun (mv : VarMaps × List LPVariable) eff =>
      ({ mv.1 with lp_var_id_f_maps_to :=
          (assocEmplace mv.1.lp_var_id_f_maps_to (eff.var, eff.value, i)
            mv.2.length) },
       mv.2 ++ [⟨0, 1, 0, use_integer_vars⟩])) mv) mv
  ve_graph.edges.foldl (fun (mv : VarMaps × List LPVariable) edge =>
    ({ mv.1 with lp_var_id_edge :=
        assocEmplace mv.1.lp_var_id_edge edge mv.2.length },
     mv.2 ++ [⟨0, 1, 0, use_integer_vars⟩])) mv

/-- Constraint family (2), first loop: one row `0 ≤ f_p ≤ 0` per fact,
recording each fact's constraint id (`lp_con_id_f_defined`). -/
def family2_create (task : STask) (m : VarMaps)
    (constraints : List LPConstraint) : List (List Nat) × List LPConstraint :=
  (List.range task.domains.length).foldl (fun acc var_id =>
    let inner := (List.range (task.domains.getD var_id 0)).foldl
      (fun (rc : List Nat × List LPConstraint) value =>
        (rc.1 ++ [rc.2.length],
         rc.2 ++ [(LPConstraint.mk (.finite 0) (.finite 0) []).insert
           (get_var_f_defined m ⟨var_id, value⟩) 1])) ([], acc.2)
    (acc.1 ++ [inner.1], inner.2)) ([], constraints)

/-- Constraint family (2), second loop: add the `-f_{p,a}` achiever terms
to the rows created by the first loop. -/
def family2_add_achievers (task : STask) (m : VarMaps)
    (con_ids : List (List Nat)) (constraints : List LPConstraint) :
    Option (List LPConstraint) :=
  (op_ids task).foldl (fun acc i =>
    (task.get_op i).effects.foldl (fun acc eff =>
      match acc with
      | none => none
      | some cons =>
        match get_var_f_maps_to m eff i with
        | none => none
        | some v =>
          let cid := (con_ids.getD eff.var []).getD eff.value 0
          some (cons.set cid ((cons.getD cid default).insert v (-1)))) acc)
    (some constraints)

/-- Constraint family (3): one row `0 ≤ f_q - Σ f_{p,a} ≤ 1` per
effect/precondition pair, created on first encounter and extended with the
achiever terms (`constraint3_ids` is the local map of the source). -/
def family3_create (task : STask) (m : VarMaps)
    (constraints : List LPConstraint) : Option (List LPConstraint) :=
  ((op_ids task).foldl (fun acc i =>
    (task.get_op i).effects.foldl (fun acc eff =>
      (task.get_op i).preconditions.foldl (fun acc pre =>
        match acc with
        | none => none
        | some mc =>
          if pre = eff then some mc
          else
            let mc : List ((FactPair × FactPair) × Nat) × List LPConstraint :=
              match assocFind mc.1 (pre, eff) with
              | some _ => mc
              | none =>
                (assocEmplace mc.1 (pre, eff) mc.2.length,
                 mc.2 ++ [(LPConstraint.mk (.finite 0) (.finite 1) []).insert
                   (get_var_f_defined m pre) 1])
            match get_var_f_maps_to m eff i with
            | none => none
            | some v =>
              let cid := (assocFind mc.1 (pre, eff)).getD 0
              some (mc.1, mc.2.set cid ((mc.2.getD cid default).insert v (-1))))
        acc) acc)
    (some (([] : List ((FactPair × FactPair) × Nat)), constraints))).map
    Prod.snd

/-- Constraint family (4): raise the lower bound of `f_p` to 1 for every
goal fact; no constraint row is created. -/
def family4_apply (task : STask) (m : VarMaps)
    (vars : List LPVariable) : List LPVariable :=
  task.goals.foldl (fun vars goal =>
    let idx := get_var_f_defined m goal
    vars.set idx { vars.getD idx default with lower_bound := 1 }) vars

/-- Constraint family (5): `0 ≤ count_a - f_{p,a}` per operator effect. -/
def family5_create (task : STask) (m : VarMaps)
    (constraints : List LPConstraint) : Option (List LPConstraint) :=
  (op_ids task).foldl (fun acc i =>
    (task.get_op i).effects.foldl (fun acc eff =>
      match acc with
      | none => none
      | some cons =>
        match get_var_f_maps_to m eff i with
        | none => none
        | some v =>
          some (cons ++ [((LPConstraint.mk (.finite 0) .infinity []).insert
            v (-1)).insert i 1])) acc) (some constraints)

/-- Constraint family (6): `0 ≤ e_{pre,eff} - f_{eff,a}` for every
operator, precondition and effect (no `pre = eff` check in the source). -/
def family6_create (task : STask) (m : VarMaps)
    (constraints : List LPConstraint) : Option (List LPConstraint) :=
  (op_ids task).foldl (fun acc i =>
    (task.get_op i).preconditions.foldl (fun acc pre =>
      (task.get_op i).effects.foldl (fun acc eff =>
        match acc with
        | none => none
        | some cons =>
          match assocFind m.lp_var_id_edge (pre, eff) with
          | none => none
          | some e =>
            match get_var_f_maps_to m eff i with
            | none => none
            | some v =>
              some (cons ++ [((LPConstraint.mk (.finite 0) .infinity
                []).insert e 1).insert v (-1)])) acc) acc) (some constraints)

/-- Constraint family (7): `e_{i,j} + e_{j,i} ≤ 1` for every edge whose
reverse edge is also present (`find` on the reverse, `at` on the edge). -/
def family7_create (m : VarMaps) (edges : List (FactPair × FactPair))
    (constraints : List LPConstraint) : Option (List LPConstraint) :=
  edges.foldl (fun acc edge =>
    match acc with
    | none => none
    | some cons =>
      match assocFind m.lp_var_id_edge (edge.2, edge.1) with
      | none => some cons
      | some reverse_edge_id =>
        match assocFind m.lp_var_id_edge edge with
        | none => none
        | some edge_id =>
          some (cons ++ [((LPConstraint.mk .neg_infinity (.finite 1)
            []).insert edge_id 1).insert reverse_edge_id 1]))
    (some constraints)

/-- Constraint family (8): `e_{i,j} + e_{j,k} - e_{i,k} ≤ 1` per delta
triple. -/
def family8_create (m : VarMaps)
    (delta : List (FactPair × FactPair × FactPair))
    (constraints : List LPConstraint) : Option (List LPConstraint) :=
  delta.foldl (fun acc t =>
    match acc with
    | none => none
    | some cons =>
      match assocFind m.lp_var_id_edge (t.1, t.2.1) with
      | none => none
      | some e1 =>
        match assocFind m.lp_var_id_edge (t.2.1, t.2.2) with
        | none => none
        | some e2 =>
          match assocFind m.lp_var_id_edge (t.1, t.2.2) with
          | none => none
          | some e3 =>
            some (cons ++ [(((LPConstraint.mk .neg_infinity (.finite 1)
              []).insert e1 1).insert e2 1).insert e3 (-1)]))
    (some constraints)

/-- `create_constraints`: families 2, 3, 4 (variable bounds), 5, 6, 7, 8 in
source order; families 9 and beyond are not implemented (`use_time_vars`
has no effect).  Returns the `lp_con_id_f_defined` table, the vars
and the constraints; `none` models an uncaught lookup failure. -/
def create_constraints (task : STask) (m : VarMaps)
    (vars : List LPVariable) (constraints : List LPConstraint)
    (ve_graph : VEGraph) :
    Option (List (List Nat) × List LPVariable × List LPConstraint) :=
  let f2 := family2_create task m constraints
  match family2_add_achievers task m f2.1 f2.2 with
  | none => none
  | some cons =>
    match family3_create task m cons with
    | none => none
    | some cons =>
      let vars := family4_apply task m vars
      match family5_create task m cons with
      | none => none
      | some cons =>
        match family6_create task m cons with
        | none => none
        | some cons =>
          match family7_create m ve_graph.edges cons with
          | none => none
          | some cons =>
            match family8_create m ve_graph.delta cons with
            | none => none
            | some cons => some (f2.1, vars, cons)

/-- The configuration options of the plugin. -/
structure PluginOpts where
  use_time_vars : Bool
  use_integer_vars : Bool
deriving DecidableEq, Repr

/-- State of a `DeleteRelaxationConstraintsRR` object. -/
structure DeleteRelaxationConstraintsRR where
  use_time_vars : Bool
  use_integer_vars : Bool
  maps : VarMaps := {}
  lp_con_id_f_defined : List (List Nat) := []
  last_state : List FactPair := []
deriving DecidableEq, Repr

/-- The constructor `DeleteRelaxationConstraintsRR(opts)`: it only reads
the two option flags. -/
def DeleteRelaxationConstraintsRR.init (opts : PluginOpts) :
    DeleteRelaxationConstraintsRR :=
  { use_time_vars := opts.use_time_vars
    use_integer_vars := opts.use_integer_vars }

/-- `get_constraint_id` (vector indexing into `lp_con_id_f_defined`). -/
def DeleteRelaxationConstraintsRR.get_constraint_id
    (h : DeleteRelaxationConstraintsRR) (f : FactPair) : Nat :=
  (h.lp_con_id_f_defined.getD f.var []).getD f.value 0

/-- The linear program handed to `initialize_constraints` (vars may
already contain the caller's operator-counting vars). -/
structure LinearProgram where
  vars : List LPVariable
  constraints : List LPConstraint
deriving DecidableEq, Repr

/-- `initialize_constraints`: build the vertex elimination graph, the
auxiliary vars and the constraints. -/
def initialize_constraints_with
    (h : DeleteRelaxationConstraintsRR) (task : STask) (lp : LinearProgram)
    (ve_graph : VEGraph) :
    Option (DeleteRelaxationConstraintsRR × LinearProgram) :=
  let mv := create_auxiliary_variables task h.use_integer_vars lp.vars
    ve_graph
  match create_constraints task mv.1 mv.2 lp.constraints ve_graph with
  | none => none
  | some r =>
    some ({ h with maps := mv.1, lp_con_id_f_defined := r.1 }, ⟨r.2.1, r.2.2⟩)

/-- `initialize_constraints`: build the vertex elimination graph, then the
auxiliary variables and the constraints. -/
def DeleteRelaxationConstraintsRR.initialize_constraints
    (h : DeleteRelaxationConstraintsRR) (task : STask) (lp : LinearProgram) :
    Option (DeleteRelaxationConstraintsRR × LinearProgram) :=
  initialize_constraints_with h task lp (VEGraph.final task)

/-- The part of the LP solver state `update_constraints` interacts with:
the loaded vars and constraints, whose bounds can be set in place. -/
structure LPSolverState where
  vars : List LPVariable
  constraints : List LPConstraint
deriving DecidableEq, Repr

def LPSolverState.set_constraint_lower_bound (s : LPSolverState) (i : Nat)
    (b : LPBound) : LPSolverState :=
  { s with constraints :=
      (s.constraints.set i
        ({ s.constraints.getD i default with lower_bound := b })) }

def LPSolverState.set_constraint_upper_bound (s : LPSolverState) (i : Nat)
    (b : LPBound) : LPSolverState :=
  { s with constraints :=
      (s.constraints.set i
        ({ s.constraints.getD i default with upper_bound := b })) }

/-- `update_constraints`: reset the bounds of the rows recorded in
`last_state` to `[0,0]`, clear `last_state`, then force the rows of the
facts of the new state to `[1,1]` while rebuilding `last_state`.
Returns `false` (the return value of the C++ function signals dead-end
detection, and this generator never reports one). -/
def DeleteRelaxationConstraintsRR.update_constraints
    (h : DeleteRelaxationConstraintsRR) (state : List FactPair)
    (lp_solver : LPSolverState) :
    Bool × DeleteRelaxationConstraintsRR × LPSolverState :=
  let lp_solver := h.last_state.foldl (fun s f =>
    let con_id := h.get_constraint_id f
    (s.set_constraint_lower_bound con_id (.finite 0)).set_constraint_upper_bound
      con_id (.finite 0)) lp_solver
  let h := { h with last_state := [] }
  let hs := state.foldl
    (fun (hs : DeleteRelaxationConstraintsRR × LPSolverState) f =>
      let con_id := hs.1.get_constraint_id f
      ({ hs.1 with last_state := hs.1.last_state ++ [f] },
       (hs.2.set_constraint_lower_bound con_id
         (.finite 1)).set_constraint_upper_bound con_id (.finite 1)))
    (h, lp_solver)
  (false, hs.1, hs.2)

/-- Example task from the spec's end-to-end scenario: two binary vars,
one operator with precondition `A=0` and effect `B=1`, goal `B=1`. -/
def exTask1 : STask :=
  { domains := [2, 2]
    operators := [⟨[⟨0, 0⟩], [⟨1, 1⟩]⟩]
    goals := [⟨1, 1⟩] }

/-- A well-formed task with one operator whose precondition equals its
effect. -/
def exTaskSelf : STask :=
  { domains := [2]
    operators := [⟨[⟨0, 0⟩], [⟨0, 0⟩]⟩]
    goals := [⟨0, 0⟩] }

/-- A task whose two operators form a 2-cycle between the facts `(0,0)`
and `(1,0)`. -/
def exTaskCycle : STask :=
  { domains := [2, 2]
    operators := [⟨[⟨0, 0⟩], [⟨1, 0⟩]⟩, ⟨[⟨1, 0⟩], [⟨0, 0⟩]⟩]
    goals := [⟨1, 0⟩] }

/-- An empty linear program, as handed to the generator in the witnesses. -/
def lp0 : LinearProgram := ⟨[], []⟩

/-- The empty graph, default for `fuel_result`. -/
def ve_empty : VEGraph := ⟨[], [], [], []⟩

/-- The result of the fuel-bounded elimination loop on a task (meaningful
whenever the fuel suffices). -/
def fuel_result (fuel : Nat) (task : STask) : List FactPair × VEGraph :=
  (VEGraph.run_elimination_fuel fuel
    ((VEGraph.construct_task_graph task).initialize_queue task)).getD
    ([], ve_empty)

theorem make_eq_fuel (task : STask) (fuel : Nat)
    (h : (VEGraph.run_elimination_fuel fuel
      ((VEGraph.construct_task_graph task).initialize_queue task)).isSome
        = true) :
    VEGraph.make task = fuel_result fuel task := by
  apply run_elimination_fuel_eq fuel
  unfold fuel_result
  rcases hx : VEGraph.run_elimination_fuel fuel
      ((VEGraph.construct_task_graph task).initialize_queue task) with _ | r
  · rw [hx] at h
    simp at h
  · rfl

theorem final_eq_fuel (task : STask) (fuel : Nat)
    (h : (VEGraph.run_elimination_fuel fuel
      ((VEGraph.construct_task_graph task).initialize_queue task)).isSome
        = true) :
    VEGraph.final task = (fuel_result fuel task).2 := by
  unfold VEGraph.final
  rw [make_eq_fuel task fuel h]

/-! Invariants of the vertex elimination graph, carried through the
construction and the elimination loop. -/

/-- An edge derived directly from the task structure: some operator has
precondition `pre` and a distinct effect `eff`. -/
def task_edge (task : STask) (e : FactPair × FactPair) : Prop :=
  ∃ op ∈ task.operators, ∃ pre ∈ op.preconditions, ∃ eff ∈ op.effects,
    pre ≠ eff ∧ e = (pre, eff)

/-- Adjacency lists only mention pairs recorded in the edge set. -/
def adj_inv (g : VEGraph) : Prop :=
  (∀ v p, p ∈ (g.get_node v).predecessors → (p, v) ∈ g.edges) ∧
  (∀ v s, s ∈ (g.get_node v).successors → (v, s) ∈ g.edges)

/-- Every recorded delta triple `(i, j, k)` has its three edges `(i,j)`,
`(j,k)` and `(i,k)` in the edge set, and its middle fact eliminated. -/
def delta_inv (g : VEGraph) : Prop :=
  ∀ t ∈ g.delta, (t.1, t.2.1) ∈ g.edges ∧ (t.2.1, t.2.2) ∈ g.edges ∧
    (t.1, t.2.2) ∈ g.edges ∧ (g.get_node t.2.1).is_eliminated = true

/-- Every edge is an original task edge or has a recorded delta triple. -/
def provenance_inv (task : STask) (g : VEGraph) : Prop :=
  ∀ e ∈ g.edges, task_edge task e ∨ ∃ v, (e.1, v, e.2) ∈ g.delta

/-- The invariant bundle carried through construction and elimination. -/
def graph_inv (task : STask) (g : VEGraph) : Prop :=
  g.edges.Nodup ∧ adj_inv g ∧ delta_inv g ∧ provenance_inv task g

theorem add_edge_preds (g : VEGraph) (a b : FactPair)
    (hmem : (a, b) ∉ g.edges) (v : FactPair) :
    ((g.add_edge a b).get_node v).predecessors = (g.get_node v).predecessors ∨
    (v = b ∧ ((g.add_edge a b).get_node v).predecessors
      = (g.get_node v).predecessors ++ [a]) := by
  have hstep1 : ∀ f, ((g.set_node a (Node.mk (g.get_node a).predecessors
      ((g.get_node a).successors ++ [b]) (g.get_node a).is_eliminated
      (g.get_node a).in_degree)).get_node f).predecessors
      = (g.get_node f).predecessors :=
    proj_set_node Node.predecessors g a (Node.mk (g.get_node a).predecessors
      ((g.get_node a).successors ++ [b]) (g.get_node a).is_eliminated
      (g.get_node a).in_degree) rfl
  have hout : ∀ f, ((g.add_edge a b).get_node f).predecessors
      = (((g.set_node a (Node.mk (g.get_node a).predecessors
      ((g.get_node a).successors ++ [b]) (g.get_node a).is_eliminated
      (g.get_node a).in_degree)).set_node b (Node.mk (((g.set_node a (Node.mk (g.get_node a).predecessors
      ((g.get_node a).successors ++ [b]) (g.get_node a).is_eliminated
      (g.get_node a).in_degree)).get_node b).predecessors ++ [a])
      ((g.set_node a (Node.mk (g.get_node a).predecessors
      ((g.get_node a).successors ++ [b]) (g.get_node a).is_eliminated
      (g.get_node a).in_degree)).get_node b).successors
      ((g.set_node a (Node.mk (g.get_node a).predecessors
      ((g.get_node a).successors ++ [b]) (g.get_node a).is_eliminated
      (g.get_node a).in_degree)).get_node b).is_eliminated
      ((g.set_node a (Node.mk (g.get_node a).predecessors
      ((g.get_node a).successors ++ [b]) (g.get_node a).is_eliminated
      (g.get_node a).in_degree)).get_node b).in_degree)).get_node f).predecessors := by
    intro f
    simp only [VEGraph.add_edge, if_neg hmem]
    rfl
  rcases eq_or_ne v b with hvb | hv
  · by_cases hr : (g.set_node a (Node.mk (g.get_node a).predecessors
      ((g.get_node a).successors ++ [b]) (g.get_node a).is_eliminated
      (g.get_node a).in_degree)).in_range b
    · right
      refine ⟨hvb, ?_⟩
      rw [hvb]
      rw [hout b, get_node_set_node_self _ _ _ hr]
      show ((g.set_node a (Node.mk (g.get_node a).predecessors
      ((g.get_node a).successors ++ [b]) (g.get_node a).is_eliminated
      (g.get_node a).in_degree)).get_node b).predecessors ++ [a] = _
      rw [hstep1 b]
    · left
      rw [hvb, hout b, set_node_oob _ _ _ hr, hstep1 b]
  · left
    rw [hout v, get_node_set_node_ne _ _ _ _ hv, hstep1 v]

theorem add_edge_succs (g : VEGraph) (a b : FactPair)
    (hmem : (a, b) ∉ g.edges) (v : FactPair) :
    ((g.add_edge a b).get_node v).successors = (g.get_node v).successors ∨
    (v = a ∧ ((g.add_edge a b).get_node v).successors
      = (g.get_node v).successors ++ [b]) := by
  have hstep2 : ∀ f, ((g.add_edge a b).get_node f).successors
      = ((g.set_node a (Node.mk (g.get_node a).predecessors
      ((g.get_node a).successors ++ [b]) (g.get_node a).is_eliminated
      (g.get_node a).in_degree)).get_node f).successors := by
    intro f
    simp only [VEGraph.add_edge, if_neg hmem]
    exact proj_set_node Node.successors (g.set_node a (Node.mk (g.get_node a).predecessors
      ((g.get_node a).successors ++ [b]) (g.get_node a).is_eliminated
      (g.get_node a).in_degree)) b (Node.mk (((g.set_node a (Node.mk (g.get_node a).predecessors
      ((g.get_node a).successors ++ [b]) (g.get_node a).is_eliminated
      (g.get_node a).in_degree)).get_node b).predecessors ++ [a])
      ((g.set_node a (Node.mk (g.get_node a).predecessors
      ((g.get_node a).successors ++ [b]) (g.get_node a).is_eliminated
      (g.get_node a).in_degree)).get_node b).successors
      ((g.set_node a (Node.mk (g.get_node a).predecessors
      ((g.get_node a).successors ++ [b]) (g.get_node a).is_eliminated
      (g.get_node a).in_degree)).get_node b).is_eliminated
      ((g.set_node a (Node.mk (g.get_node a).predecessors
      ((g.get_node a).successors ++ [b]) (g.get_node a).is_eliminated
      (g.get_node a).in_degree)).get_node b).in_degree) rfl f
  rcases eq_or_ne v a with hva | hv
  · by_cases hr : g.in_range a
    · right
      refine ⟨hva, ?_⟩
      rw [hva]
      rw [hstep2 a, get_node_set_node_self _ _ _ hr]
    · left
      rw [hva, hstep2 a, set_node_oob _ _ _ hr]
  · left
    rw [hstep2 v, get_node_set_node_ne _ _ _ _ hv]

theorem nodup_append_singleton {α : Type} (l : List α) (x : α)
    (hl : l.Nodup) (hx : x ∉ l) : (l ++ [x]).Nodup := by
  rw [List.nodup_append]
  exact ⟨hl, List.nodup_singleton x, by
    intro a ha hb
    simp at hb
    subst hb
    exact hx ha⟩

/-- `Nodup`, adjacency and delta invariants are preserved by `add_edge`. -/
theorem add_edge_inv0 (g : VEGraph) (a b : FactPair)
    (h1 : g.edges.Nodup) (h2 : adj_inv g) (h3 : delta_inv g) :
    (g.add_edge a b).edges.Nodup ∧ adj_inv (g.add_edge a b) ∧
      delta_inv (g.add_edge a b) := by
  obtain ⟨aq, ad, ap, afl, adeg, aed, amem, acnt⟩ := add_edge_spec g a b
  by_cases hmem : (a, b) ∈ g.edges
  · have heq : g.add_edge a b = g := by
      simp only [VEGraph.add_edge, if_pos hmem]
    rw [heq]
    exact ⟨h1, h2, h3⟩
  · have hedges : (g.add_edge a b).edges = g.edges ++ [(a, b)] := by
      simp only [VEGraph.add_edge, if_neg hmem]
      rfl
    refine ⟨?_, ⟨?_, ?_⟩, ?_⟩
    · rw [hedges]
      exact nodup_append_singleton _ _ h1 hmem
    · intro v p hp
      rw [hedges]
      rcases add_edge_preds g a b hmem v with hc | ⟨hvb, hc⟩
      · rw [hc] at hp
        exact List.mem_append_left _ (h2.1 v p hp)
      · rw [hc] at hp
        rcases List.mem_append.mp hp with hp | hp
        · exact List.mem_append_left _ (h2.1 v p hp)
        · simp at hp
          subst hp
          rw [hvb]
          simp
    · intro v st hst
      rw [hedges]
      rcases add_edge_succs g a b hmem v with hc | ⟨hva, hc⟩
      · rw [hc] at hst
        exact List.mem_append_left _ (h2.2 v st hst)
      · rw [hc] at hst
        rcases List.mem_append.mp hst with hst | hst
        · exact List.mem_append_left _ (h2.2 v st hst)
        · simp at hst
          subst hst
          rw [hva]
          simp
    · have hmono : ∀ e ∈ g.edges, e ∈ (g.add_edge a b).edges := by
        intro e he
        rw [hedges]
        exact List.mem_append_left _ he
      intro t ht
      rw [ad] at ht
      obtain ⟨e1, e2, e3, e4⟩ := h3 t ht
      exact ⟨hmono _ e1, hmono _ e2, hmono _ e3, by rw [afl]; exact e4⟩

theorem foldl_preserve {β : Type} (P : VEGraph → Prop)
    (step : VEGraph → β → VEGraph) (hstep : ∀ g x, P g → P (step g x)) :
    ∀ (l : List β) (g : VEGraph), P g → P (l.foldl step g) := by
  intro l
  induction l with
  | nil => intro g h; exact h
  | cons x xs ih =>
    intro g h
    rw [List.foldl_cons]
    exact ih _ (hstep g x h)

theorem add_edge_eq_of_mem (g : VEGraph) (a b : FactPair)
    (hmem : (a, b) ∈ g.edges) : g.add_edge a b = g := by
  simp only [VEGraph.add_edge, if_pos hmem]

theorem add_edge_edges_of_not_mem (g : VEGraph) (a b : FactPair)
    (hmem : (a, b) ∉ g.edges) :
    (g.add_edge a b).edges = g.edges ++ [(a, b)] := by
  simp only [VEGraph.add_edge, if_neg hmem]
  rfl

theorem add_edge_mono (g : VEGraph) (a b : FactPair) (e : FactPair × FactPair)
    (he : e ∈ g.edges) : e ∈ (g.add_edge a b).edges := by
  by_cases hmem : (a, b) ∈ g.edges
  · rw [add_edge_eq_of_mem g a b hmem]
    exact he
  · rw [add_edge_edges_of_not_mem g a b hmem]
    exact List.mem_append_left _ he

theorem add_edge_graph_inv_task (task : STask) (g : VEGraph) (a b : FactPair)
    (hinv : graph_inv task g) (hte : task_edge task (a, b)) :
    graph_inv task (g.add_edge a b) := by
  obtain ⟨h1, h2, h3, h4⟩ := hinv
  obtain ⟨n1, n2, n3⟩ := add_edge_inv0 g a b h1 h2 h3
  refine ⟨n1, n2, n3, ?_⟩
  intro e he
  by_cases hmem : (a, b) ∈ g.edges
  · rw [add_edge_eq_of_mem g a b hmem] at he ⊢
    exact h4 e he
  · have hdelta : (g.add_edge a b).delta = g.delta := (add_edge_spec g a b).2.1
    rw [add_edge_edges_of_not_mem g a b hmem] at he
    rcases List.mem_append.mp he with he | he
    · rcases h4 e he with h | ⟨v, hv⟩
      · exact Or.inl h
      · exact Or.inr ⟨v, by rw [hdelta]; exact hv⟩
    · simp at he
      subst he
      exact Or.inl hte

theorem construct_inner_inv (task : STask) (op : STOperator)
    (hop : op ∈ task.operators) (pre : FactPair)
    (hpre : pre ∈ op.preconditions) :
    ∀ (effs : List FactPair), (∀ e ∈ effs, e ∈ op.effects) →
    ∀ g, graph_inv task g →
    graph_inv task (effs.foldl (fun g eff =>
      if pre ≠ eff then g.add_edge pre eff else g) g) := by
  intro effs
  induction effs with
  | nil => intro _ g hg; exact hg
  | cons e es ih =>
    intro hsub g hg
    rw [List.foldl_cons]
    apply ih (fun x hx => hsub x (List.mem_cons_of_mem _ hx))
    by_cases hne : pre ≠ e
    · rw [if_pos hne]
      exact add_edge_graph_inv_task task g pre e hg
        ⟨op, hop, pre, hpre, e, hsub e (List.mem_cons_self _ _), hne, rfl⟩
    · rw [if_neg hne]
      exact hg

theorem construct_mid_inv (task : STask) (op : STOperator)
    (hop : op ∈ task.operators) :
    ∀ (pres : List FactPair), (∀ p ∈ pres, p ∈ op.preconditions) →
    ∀ g, graph_inv task g →
    graph_inv task (pres.foldl (fun g pre =>
      op.effects.foldl (fun g eff =>
        if pre ≠ eff then g.add_edge pre eff else g) g) g) := by
  intro pres
  induction pres with
  | nil => intro _ g hg; exact hg
  | cons p ps ih =>
    intro hsub g hg
    rw [List.foldl_cons]
    apply ih (fun x hx => hsub x (List.mem_cons_of_mem _ hx))
    exact construct_inner_inv task op hop p (hsub p (List.mem_cons_self _ _))
      op.effects (fun _ hx => hx) g hg

theorem construct_outer_inv (task : STask) :
    ∀ (ops : List STOperator), (∀ o ∈ ops, o ∈ task.operators) →
    ∀ g, graph_inv task g →
    graph_inv task (ops.foldl (fun g op =>
      op.preconditions.foldl (fun g pre =>
        op.effects.foldl (fun g eff =>
          if pre ≠ eff then g.add_edge pre eff else g) g) g) g) := by
  intro ops
  induction ops with
  | nil => intro _ g hg; exact hg
  | cons o os ih =>
    intro hsub g hg
    rw [List.foldl_cons]
    apply ih (fun x hx => hsub x (List.mem_cons_of_mem _ hx))
    exact construct_mid_inv task o (hsub o (List.mem_cons_self _ _))
      o.preconditions (fun _ hx => hx) g hg

theorem getD_mem_or {α : Type} (l : List α) (i : Nat) (d : α) :
    l.getD i d = d ∨ l.getD i d ∈ l := by
  rw [List.getD_eq_getElem?_getD]
  rcases hx : l[i]? with _ | x
  · exact Or.inl rfl
  · right
    have := List.getElem?_mem hx
    simpa using this

theorem getD_const {α : Type} (l : List α) (c : α) (h : ∀ x ∈ l, x = c)
    (i : Nat) : l.getD i c = c := by
  rcases getD_mem_or l i c with hx | hx
  · exact hx
  · exact h _ hx

theorem construct_g0_get_node (task : STask) (f : FactPair) :
    (VEGraph.mk (task.domains.map (fun d => List.replicate d ({} : Node)))
      [] [] []).get_node f = {} := by
  unfold VEGraph.get_node
  apply getD_const
  intro x hx
  rcases getD_mem_or (task.domains.map (fun d => List.replicate d ({} : Node)))
      f.var [] with h | h
  · rw [h] at hx
    simp at hx
  · rcases List.mem_map.mp h with ⟨d, _, hrow⟩
    rw [← hrow] at hx
    exact List.eq_of_mem_replicate hx

theorem construct_task_graph_inv (task : STask) :
    graph_inv task (VEGraph.construct_task_graph task) := by
  unfold VEGraph.construct_task_graph
  apply construct_outer_inv task task.operators (fun _ hx => hx)
  refine ⟨List.nodup_nil, ⟨?_, ?_⟩, ?_, ?_⟩
  · intro v p hp
    rw [construct_g0_get_node task v] at hp
    simp at hp
  · intro v s hs
    rw [construct_g0_get_node task v] at hs
    simp at hs
  · intro t ht
    simp at ht
  · intro e he
    simp at he

theorem foldl_pres {σ β : Type} (P : σ → Prop) (step : σ → β → σ)
    (hstep : ∀ s x, P s → P (step s x)) :
    ∀ (l : List β) (s : σ), P s → P (l.foldl step s) := by
  intro l
  induction l with
  | nil => intro s h; exact h
  | cons x xs ih =>
    intro s h
    rw [List.foldl_cons]
    exact ih _ (hstep s x h)

theorem graph_inv_transfer (task : STask) (g g' : VEGraph)
    (he : g'.edges = g.edges) (hd : g'.delta = g.delta)
    (hp : ∀ v, (g'.get_node v).predecessors = (g.get_node v).predecessors)
    (hs : ∀ v, (g'.get_node v).successors = (g.get_node v).successors)
    (hf : ∀ v, (g'.get_node v).is_eliminated = (g.get_node v).is_eliminated)
    (h : graph_inv task g) : graph_inv task g' := by
  obtain ⟨h1, h2, h3, h4⟩ := h
  refine ⟨by rw [he]; exact h1, ⟨?_, ?_⟩, ?_, ?_⟩
  · intro v p hpp
    rw [hp] at hpp
    rw [he]
    exact h2.1 v p hpp
  · intro v st hst
    rw [hs] at hst
    rw [he]
    exact h2.2 v st hst
  · intro t ht
    rw [hd] at ht
    obtain ⟨e1, e2, e3, e4⟩ := h3 t ht
    exact ⟨by rw [he]; exact e1, by rw [he]; exact e2, by rw [he]; exact e3,
      by rw [hf]; exact e4⟩
  · intro e hee
    rw [he] at hee
    rcases h4 e hee with h | ⟨v, hv⟩
    · exact Or.inl h
    · exact Or.inr ⟨v, by rw [hd]; exact hv⟩

theorem mark_flag_mono (g : VEGraph) (fact : FactPair) (v : FactPair)
    (hv : (g.get_node v).is_eliminated = true) :
    ((g.set_node fact
      { g.get_node fact with is_eliminated := true }).get_node
        v).is_eliminated = true := by
  rcases eq_or_ne v fact with rfl | hne
  · by_cases hr : g.in_range v
    · rw [get_node_set_node_self _ _ _ hr]
    · rw [set_node_oob _ _ _ hr]
      exact hv
  · rw [get_node_set_node_ne _ _ _ _ hne]
    exact hv

theorem mark_graph_inv (task : STask) (g : VEGraph) (fact : FactPair)
    (hinv : graph_inv task g) :
    graph_inv task (g.set_node fact
      { g.get_node fact with is_eliminated := true }) := by
  obtain ⟨h1, h2, h3, h4⟩ := hinv
  have hpred : ∀ v, ((g.set_node fact
      { g.get_node fact with is_eliminated := true }).get_node
        v).predecessors = (g.get_node v).predecessors :=
    proj_set_node Node.predecessors g fact _ rfl
  have hsucc : ∀ v, ((g.set_node fact
      { g.get_node fact with is_eliminated := true }).get_node
        v).successors = (g.get_node v).successors :=
    proj_set_node Node.successors g fact _ rfl
  refine ⟨h1, ⟨?_, ?_⟩, ?_, ?_⟩
  · intro v p hpp
    rw [hpred] at hpp
    exact h2.1 v p hpp
  · intro v st hst
    rw [hsucc] at hst
    exact h2.2 v st hst
  · intro t ht
    obtain ⟨e1, e2, e3, e4⟩ := h3 t ht
    exact ⟨e1, e2, e3, mark_flag_mono g fact _ e4⟩
  · exact h4

theorem new_shortcuts_mem (g : VEGraph) (fact : FactPair)
    (sc : FactPair × FactPair × FactPair)
    (h : sc ∈ ((g.get_node fact).predecessors.filter
      (fun p => !(g.get_node p).is_eliminated)).flatMap
      (fun predecessor =>
        ((g.get_node fact).successors.filter
          (fun s => !(g.get_node s).is_eliminated)).filterMap
          (fun successor =>
            if (predecessor, successor) ∈ g.edges then none
            else some (predecessor, fact, successor)))) :
    sc.2.1 = fact ∧ sc.1 ∈ (g.get_node fact).predecessors ∧
      sc.2.2 ∈ (g.get_node fact).successors := by
  rcases List.mem_flatMap.mp h with ⟨p, hp, hsc⟩
  rcases List.mem_filterMap.mp hsc with ⟨s, hs, hif⟩
  have hp' := (List.mem_filter.mp hp).1
  have hs' := (List.mem_filter.mp hs).1
  by_cases hmem : (p, s) ∈ g.edges
  · rw [if_pos hmem] at hif
    exact absurd hif (by simp)
  · rw [if_neg hmem] at hif
    have heq : (p, fact, s) = sc := Option.some.inj hif
    subst heq
    exact ⟨rfl, hp', hs'⟩

theorem shortcut_fold_inv (task : STask) (fact : FactPair) :
    ∀ (scs : List (FactPair × FactPair × FactPair)) (g : VEGraph),
    graph_inv task g →
    (∀ sc ∈ scs, sc.2.1 = fact ∧ (sc.1, fact) ∈ g.edges ∧
      (fact, sc.2.2) ∈ g.edges) →
    (g.get_node fact).is_eliminated = true →
    graph_inv task (scs.foldl (fun g sc =>
      let g' := g.add_edge sc.1 sc.2.2
      { g' with delta := g'.delta ++ [sc] }) g) := by
  intro scs
  induction scs with
  | nil => intro g hg _ _; exact hg
  | cons sc rest ih =>
    intro g hg hjust hel
    rw [List.foldl_cons]
    obtain ⟨hmid, hpf, hfs⟩ := hjust sc (List.mem_cons_self _ _)
    obtain ⟨aq, ad, ap, afl, adeg, aed, amem, acnt⟩ := add_edge_spec g sc.1 sc.2.2
    have hmono : ∀ e ∈ g.edges, e ∈ (g.add_edge sc.1 sc.2.2).edges :=
      fun e he => add_edge_mono g sc.1 sc.2.2 e he
    obtain ⟨h1, h2, h3, h4⟩ := hg
    obtain ⟨n1, n2, n3⟩ := add_edge_inv0 g sc.1 sc.2.2 h1 h2 h3
    have hstepdelta : ({ g.add_edge sc.1 sc.2.2 with
        delta := (g.add_edge sc.1 sc.2.2).delta ++ [sc] } : VEGraph).delta
        = g.delta ++ [sc] := by
      show (g.add_edge sc.1 sc.2.2).delta ++ [sc] = g.delta ++ [sc]
      rw [ad]
    have hstepflag : ∀ v, (({ g.add_edge sc.1 sc.2.2 with
        delta := (g.add_edge sc.1 sc.2.2).delta ++ [sc] } : VEGraph).get_node
          v).is_eliminated = (g.get_node v).is_eliminated := fun v => afl v
    apply ih
    · refine ⟨n1, n2, ?_, ?_⟩
      · intro t ht
        rw [hstepdelta] at ht
        rcases List.mem_append.mp ht with ht | ht
        · obtain ⟨e1, e2, e3, e4⟩ := h3 t ht
          exact ⟨hmono _ e1, hmono _ e2, hmono _ e3, by rw [hstepflag]; exact e4⟩
        · simp only [List.mem_singleton] at ht
          subst ht
          refine ⟨?_, ?_, amem, ?_⟩
          · rw [hmid]
            exact hmono _ hpf
          · rw [hmid]
            exact hmono _ hfs
          · rw [hstepflag, hmid]
            exact hel
      · intro e he
        have he' : e ∈ (g.add_edge sc.1 sc.2.2).edges := he
        rcases aed with hc | ⟨_, hc⟩
        · rw [hc] at he'
          rcases h4 e he' with h | ⟨v, hv⟩
          · exact Or.inl h
          · refine Or.inr ⟨v, ?_⟩
            rw [hstepdelta]
            exact List.mem_append_left _ hv
        · rw [hc] at he'
          rcases List.mem_append.mp he' with he'' | he''
          · rcases h4 e he'' with h | ⟨v, hv⟩
            · exact Or.inl h
            · refine Or.inr ⟨v, ?_⟩
              rw [hstepdelta]
              exact List.mem_append_left _ hv
          · simp only [List.mem_singleton] at he''
            subst he''
            refine Or.inr ⟨sc.2.1, ?_⟩
            rw [hstepdelta]
            exact List.mem_append_right _ (by simp)
    · intro sc' hsc'
      obtain ⟨hm', hp', hf'⟩ := hjust sc' (List.mem_cons_of_mem _ hsc')
      exact ⟨hm', hmono _ hp', hmono _ hf'⟩
    · rw [hstepflag]
      exact hel

theorem push_fold_adj (l : List FactPair) (g : VEGraph) :
    (∀ f, ((l.foldl (fun g successor =>
      if (g.get_node successor).is_eliminated then g
      else g.push_fact successor) g).get_node f).predecessors
        = (g.get_node f).predecessors) ∧
    (∀ f, ((l.foldl (fun g successor =>
      if (g.get_node successor).is_eliminated then g
      else g.push_fact successor) g).get_node f).successors
        = (g.get_node f).successors) := by
  induction l generalizing g with
  | nil => exact ⟨fun _ => rfl, fun _ => rfl⟩
  | cons s rest ih =>
    rw [List.foldl_cons]
    by_cases hel : ((g.get_node s).is_eliminated : Bool) = true
    · rw [if_pos hel]
      exact ih g
    · rw [if_neg hel]
      obtain ⟨pe, pd, pp, pfl, ppre, psucc, pcnt, pent, pq⟩ := push_fact_spec g s
      obtain ⟨ipre, isucc⟩ := ih (g.push_fact s)
      exact ⟨fun f => by rw [ipre, ppre], fun f => by rw [isucc, psucc]⟩

theorem eliminate_graph_inv (task : STask) (g : VEGraph) (fact : FactPair)
    (hinv : graph_inv task g) : graph_inv task (g.eliminate fact) := by
  by_cases hr : g.in_range fact
  · simp only [VEGraph.eliminate]
    have hmflag : ((g.set_node fact
        { g.get_node fact with is_eliminated := true }).get_node
          fact).is_eliminated = true := by
      rw [get_node_set_node_self g fact _ hr]
    have hminv := mark_graph_inv task g fact hinv
    have hfinv := shortcut_fold_inv task fact
      (((g.get_node fact).predecessors.filter
        (fun p => !(g.get_node p).is_eliminated)).flatMap
        (fun predecessor =>
          ((g.get_node fact).successors.filter
            (fun s => !(g.get_node s).is_eliminated)).filterMap
            (fun successor =>
              if (predecessor, successor) ∈ g.edges then none
              else some (predecessor, fact, successor))))
      (g.set_node fact { g.get_node fact with is_eliminated := true })
      hminv ?_ hmflag
    · obtain ⟨fpre, fsucc⟩ := push_fold_adj _ _
      obtain ⟨pe, pd, pp, pfl, pcnt, pent, pext, phq⟩ := push_fold_spec _ _
      exact graph_inv_transfer task _ _ pe pd fpre fsucc pfl hfinv
    · intro sc hsc
      obtain ⟨hm, hp, hs⟩ := new_shortcuts_mem g fact sc hsc
      obtain ⟨_, h2, _, _⟩ := hinv
      exact ⟨hm, h2.1 fact sc.1 hp, h2.2 fact sc.2.2 hs⟩
  · rw [eliminate_oob g fact hr]
    exact hinv

theorem eliminate_edges_mono (g : VEGraph) (fact : FactPair)
    (e : FactPair × FactPair) (he : e ∈ g.edges) :
    e ∈ (g.eliminate fact).edges := by
  simp only [VEGraph.eliminate]
  obtain ⟨pe, pd, pp, pfl, pcnt, pent, pext, phq⟩ := push_fold_spec _ _
  rw [pe]
  obtain ⟨sq, sp, sfl, scnt, sent, smono⟩ := shortcut_fold_spec _ _
  exact smono e he

theorem pop_fact_preserves (g : VEGraph) (a : Option FactPair) (g1 : VEGraph)
    (h : g.pop_fact = (a, g1)) :
    g1.nodes = g.nodes ∧ g1.edges = g.edges ∧ g1.delta = g.delta := by
  unfold VEGraph.pop_fact at h
  cases a with
  | none =>
    obtain ⟨hg1, _⟩ := pop_fact_go_none_spec _ g g1 (Nat.le_refl _) h
    rw [hg1]
    exact ⟨rfl, rfl, rfl⟩
  | some f =>
    obtain ⟨hn, he, hd, _⟩ := pop_fact_go_some_spec _ g f g1 h
    exact ⟨hn, he, hd⟩

theorem pop_fact_graph_inv (task : STask) (g : VEGraph) (a : Option FactPair)
    (g1 : VEGraph) (h : g.pop_fact = (a, g1)) (hinv : graph_inv task g) :
    graph_inv task g1 := by
  obtain ⟨hn, he, hd⟩ := pop_fact_preserves g a g1 h
  have hget : ∀ v, g1.get_node v = g.get_node v := by
    intro v
    unfold VEGraph.get_node
    rw [hn]
  exact graph_inv_transfer task g g1 he hd (fun v => by rw [hget])
    (fun v => by rw [hget]) (fun v => by rw [hget]) hinv

theorem run_elimination_preserve (P : VEGraph → Prop)
    (hpop : ∀ g a g1, g.pop_fact = (a, g1) → P g → P g1)
    (helim : ∀ g f, P g → P (g.eliminate f))
    (g : VEGraph) (h : P g) : P g.run_elimination.2 :=
  match hp : g.pop_fact with
  | (none, g1) => by
    rw [run_elimination_none g g1 hp]
    exact hpop g none g1 hp h
  | (some fact, g1) => by
    rw [run_elimination_some g fact g1 hp]
    exact run_elimination_preserve P hpop helim (g1.eliminate fact)
      (helim g1 fact (hpop g (some fact) g1 hp h))
termination_by (g.countNonElim, g.elimEntries, g.elimination_queue.length)
decreasing_by
  rcases measure_decreases g fact g1 hp with h1 | ⟨h1, h2 | ⟨h2, h3⟩⟩
  · exact Prod.Lex.left _ _ h1
  · rw [h1]
    exact Prod.Lex.right _ (Prod.Lex.left _ _ h2)
  · rw [h1, h2]
    exact Prod.Lex.right _ (Prod.Lex.right _ h3)

theorem push_fact_edges_delta (g : VEGraph) (f : FactPair) :
    (g.push_fact f).edges = g.edges ∧ (g.push_fact f).delta = g.delta ∧
    (g.push_fact f).profile = g.profile := by
  obtain ⟨pe, pd, pp, _⟩ := push_fact_spec g f
  exact ⟨pe, pd, pp⟩

theorem initialize_queue_graph_inv (task : STask) (g : VEGraph)
    (hinv : graph_inv task g) : graph_inv task (g.initialize_queue task) := by
  unfold VEGraph.initialize_queue
  refine foldl_pres (graph_inv task) _ ?_ task.facts g hinv
  intro g' f hg'
  obtain ⟨pe, pd, pp, pfl, ppre, psucc, _⟩ := push_fact_spec g' f
  exact graph_inv_transfer task g' _ pe pd ppre psucc pfl hg'

theorem final_graph_inv (task : STask) :
    graph_inv task (VEGraph.final task) := by
  unfold VEGraph.final VEGraph.make
  exact run_elimination_preserve (graph_inv task)
    (fun g a g1 h hg => pop_fact_graph_inv task g a g1 h hg)
    (fun g f hg => eliminate_graph_inv task g f hg)
    _ (initialize_queue_graph_inv task _ (construct_task_graph_inv task))

/-! Coverage of the elimination queue: every in-range non-eliminated fact
keeps an entry whose key equals its stored `in_degree`, so `pop_fact`
cannot run dry while non-eliminated facts remain. -/

/-- Fact `u` is covered: if it is an actual non-eliminated node, the queue
holds an entry for it keyed by its current `in_degree`. -/
def cov (g : VEGraph) (u : FactPair) : Prop :=
  g.in_range u → (g.get_node u).is_eliminated = false →
    ((g.get_node u).in_degree, u) ∈ g.elimination_queue

/-- Every fact is covered. -/
def queue_inv (g : VEGraph) : Prop := ∀ u, cov g u

theorem cov_transfer (g g' : VEGraph) (u : FactPair)
    (hq : g'.elimination_queue = g.elimination_queue)
    (hp : g'.profile = g.profile)
    (hf : (g'.get_node u).is_eliminated = (g.get_node u).is_eliminated)
    (hd : (g'.get_node u).in_degree = (g.get_node u).in_degree)
    (hc : cov g u) : cov g' u := by
  intro hr hflag
  rw [hq, hd]
  apply hc
  · rw [in_range_iff] at hr ⊢
    rw [hp] at hr
    exact hr
  · rw [← hf]
    exact hflag

theorem shortcut_fold_deg :
    ∀ (scs : List (FactPair × FactPair × FactPair)) (g : VEGraph)
      (f : FactPair),
    ((scs.foldl (fun g sc =>
      let g' := g.add_edge sc.1 sc.2.2
      { g' with delta := g'.delta ++ [sc] }) g).get_node f).in_degree
      = (g.get_node f).in_degree := by
  intro scs
  induction scs with
  | nil => intro g f; rfl
  | cons sc rest ih =>
    intro g f
    rw [List.foldl_cons, ih]
    exact (add_edge_spec g sc.1 sc.2.2).2.2.2.2.1 f

theorem push_fact_deg_ne (g : VEGraph) (s u : FactPair) (hne : u ≠ s) :
    ((g.push_fact s).get_node u).in_degree = (g.get_node u).in_degree := by
  by_cases hel : (g.get_node s).is_eliminated = true
  · have hpush : g.push_fact s = g := by
      simp only [VEGraph.push_fact]
      rw [if_pos hel]
    rw [hpush]
  · simp only [VEGraph.push_fact]
    rw [if_neg hel]
    rw [get_node_qupd, get_node_set_node_ne _ _ _ _ hne]

theorem push_fact_cov_self (g : VEGraph) (s : FactPair) :
    cov (g.push_fact s) s := by
  by_cases hel : (g.get_node s).is_eliminated = true
  · have hpush : g.push_fact s = g := by
      simp only [VEGraph.push_fact]
      rw [if_pos hel]
    intro hr hflag
    rw [hpush] at hflag ⊢
    rw [hflag] at hel
    exact absurd hel (by simp)
  · intro hr hflag
    have hq : (g.push_fact s).elimination_queue = g.elimination_queue
        ++ [(((g.get_node s).predecessors.filter
          (fun p => !(g.get_node p).is_eliminated)).length, s)] := by
      simp only [VEGraph.push_fact]
      rw [if_neg hel]
      rfl
    have hdeg : ((g.push_fact s).get_node s).in_degree
        = ((g.get_node s).predecessors.filter
          (fun p => !(g.get_node p).is_eliminated)).length := by
      simp only [VEGraph.push_fact]
      rw [if_neg hel]
      by_cases hr2 : g.in_range s
      · obtain ⟨hv, hval⟩ := hr2
        show ((((g.nodes.set s.var _).getD s.var []).getD s.value {}
          : Node)).in_degree = _
        rw [getD_set_self _ _ _ hv, getD_set_self _ _ _ hval]
      · show (((g.set_node s _ : VEGraph).get_node s : Node)).in_degree = _
        rw [set_node_oob _ _ _ hr2, get_node_oob _ _ hr2]
        rfl
    rw [hq, hdeg]
    exact List.mem_append_right _ (by simp)

theorem push_fact_cov_ne (g : VEGraph) (s u : FactPair) (hne : u ≠ s)
    (hc : cov g u) : cov (g.push_fact s) u := by
  intro hr hflag
  obtain ⟨pe, pd, pp, pfl, ppre, psucc, pcnt, pent, pq⟩ := push_fact_spec g s
  have hr' : g.in_range u := by
    rw [in_range_iff] at hr ⊢
    rw [pp] at hr
    exact hr
  have hflag' : (g.get_node u).is_eliminated = false := by
    rw [← pfl]
    exact hflag
  have hmem := hc hr' hflag'
  rw [push_fact_deg_ne g s u hne]
  rcases pq with hq | ⟨_, hq⟩
  · rw [hq]
    exact hmem
  · rw [hq]
    exact List.mem_append_left _ hmem

theorem mark_cov_ne (g : VEGraph) (f u : FactPair) (hne : u ≠ f)
    (hc : cov g u) :
    cov (g.set_node f { g.get_node f with is_eliminated := true }) u :=
  cov_transfer g _ u rfl (profile_set_node g f _)
    (by rw [get_node_set_node_ne _ _ _ _ hne])
    (by rw [get_node_set_node_ne _ _ _ _ hne]) hc

theorem push_fold_cov (l : List FactPair) (g : VEGraph) (u : FactPair)
    (hc : cov g u) :
    cov (l.foldl (fun g successor =>
      if (g.get_node successor).is_eliminated then g
      else g.push_fact successor) g) u := by
  refine foldl_pres (fun g => cov g u) _ ?_ l g hc
  intro g' s hc'
  by_cases hel : ((g'.get_node s).is_eliminated : Bool) = true
  · rw [if_pos hel]
    exact hc'
  · rw [if_neg hel]
    rcases eq_or_ne u s with rfl | hne
    · exact push_fact_cov_self g' u
    · exact push_fact_cov_ne g' s u hne hc'

theorem pop_fact_cov_ne (g : VEGraph) (f : FactPair) (g1 : VEGraph)
    (h : g.pop_fact = (some f, g1)) (u : FactPair) (hne : u ≠ f)
    (hc : cov g u) : cov g1 u := by
  unfold VEGraph.pop_fact at h
  obtain ⟨hn, he, hd, hcount, hlen, hsurv⟩ := pop_fact_go_some_spec _ _ _ _ h
  intro hr hflag
  have hget : ∀ v, g1.get_node v = g.get_node v := by
    intro v
    unfold VEGraph.get_node
    rw [hn]
  have hr' : g.in_range u := by
    unfold VEGraph.in_range at hr ⊢
    rw [hn] at hr
    exact hr
  have hflag' : (g.get_node u).is_eliminated = false := by
    rw [← hget]
    exact hflag
  have hx := hc hr' hflag'
  rcases hsurv ((g.get_node u).in_degree, u) hx rfl with hin | heq
  · rw [hget]
    exact hin
  · exfalso
    apply hne
    have := congrArg Prod.snd heq
    simpa using this

theorem eliminate_queue_inv (g : VEGraph) (f : FactPair)
    (hcov : ∀ u, u ≠ f → cov g u) : queue_inv (g.eliminate f) := by
  by_cases hr : g.in_range f
  · simp only [VEGraph.eliminate]
    intro u
    have hmflag : ((g.set_node f
        { g.get_node f with is_eliminated := true }).get_node
          f).is_eliminated = true := by
      rw [get_node_set_node_self g f _ hr]
    obtain ⟨sq, sp, sfl, scnt, sent, smono⟩ := shortcut_fold_spec
      (((g.get_node f).predecessors.filter
        (fun p => !(g.get_node p).is_eliminated)).flatMap
        (fun predecessor =>
          ((g.get_node f).successors.filter
            (fun s => !(g.get_node s).is_eliminated)).filterMap
            (fun successor =>
              if (predecessor, successor) ∈ g.edges then none
              else some (predecessor, f, successor))))
      (g.set_node f { g.get_node f with is_eliminated := true })
    by_cases huf : u = f
    · subst huf
      intro hru hflagu
      exfalso
      obtain ⟨pe, pd, pp, pfl, pcnt, pent, pext, phq⟩ := push_fold_spec _ _
      rw [pfl, sfl, hmflag] at hflagu
      exact absurd hflagu (by simp)
    · have h1 : cov (g.set_node f
          { g.get_node f with is_eliminated := true }) u :=
        mark_cov_ne g f u huf (hcov u huf)
      have h2 := cov_transfer _ _ u sq sp (sfl u)
        (shortcut_fold_deg _ _ u) h1
      exact push_fold_cov _ _ u h2
  · rw [eliminate_oob _ _ hr]
    intro u
    by_cases huf : u = f
    · subst huf
      intro hru _
      exact absurd hru hr
    · exact hcov u huf

theorem run_elimination_all_elim (g : VEGraph) (hJ : queue_inv g) :
    (∀ u, g.run_elimination.2.in_range u →
      (g.run_elimination.2.get_node u).is_eliminated = true) ∧
    g.run_elimination.2.elimination_queue = [] :=
  match hp : g.pop_fact with
  | (none, g1) => by
    rw [run_elimination_none g g1 hp]
    have h := hp
    unfold VEGraph.pop_fact at h
    obtain ⟨hg1, hinvl⟩ := pop_fact_go_none_spec _ g g1 (Nat.le_refl _) h
    subst hg1
    constructor
    · intro u hru
      by_contra hne
      have hflag : (g.get_node u).is_eliminated = false := by
        simpa using hne
      have hmem := hJ u hru hflag
      exact hinvl _ hmem rfl
    · rfl
  | (some fact, g1) => by
    rw [run_elimination_some g fact g1 hp]
    apply run_elimination_all_elim (g1.eliminate fact)
    apply eliminate_queue_inv
    intro u hne
    exact pop_fact_cov_ne g fact g1 hp u hne (hJ u)
termination_by (g.countNonElim, g.elimEntries, g.elimination_queue.length)
decreasing_by
  rcases measure_decreases g fact g1 hp with h1 | ⟨h1, h2 | ⟨h2, h3⟩⟩
  · exact Prod.Lex.left _ _ h1
  · rw [h1]
    exact Prod.Lex.right _ (Prod.Lex.left _ _ h2)
  · rw [h1, h2]
    exact Prod.Lex.right _ (Prod.Lex.right _ h3)

theorem init_fold_cov_mem :
    ∀ (l : List FactPair) (g : VEGraph) (u : FactPair), u ∈ l →
    cov (l.foldl (fun g f => g.push_fact f) g) u := by
  intro l
  induction l with
  | nil =>
    intro g u hu
    simp at hu
  | cons s rest ih =>
    intro g u hu
    rw [List.foldl_cons]
    rcases List.mem_cons.mp hu with heq | hmem
    · subst heq
      refine foldl_pres (fun g => cov g u) _ ?_ rest _ (push_fact_cov_self g u)
      intro g' f hc
      rcases eq_or_ne u f with rfl | hne
      · exact push_fact_cov_self g' u
      · exact push_fact_cov_ne g' f u hne hc
    · exact ih _ u hmem

theorem facts_mem (task : STask) (f : FactPair) :
    f ∈ task.facts ↔
      f.var < task.domains.length ∧ f.value < task.domains.getD f.var 0 := by
  unfold STask.facts
  constructor
  · intro h
    rcases List.mem_flatMap.mp h with ⟨v, hv, hf⟩
    rcases List.mem_map.mp hf with ⟨val, hval, heq⟩
    subst heq
    simp only [List.mem_range] at hv hval
    exact ⟨hv, hval⟩
  · rintro ⟨h1, h2⟩
    refine List.mem_flatMap.mpr ⟨f.var, by simpa using h1, ?_⟩
    exact List.mem_map.mpr ⟨f.value, by simpa using h2, rfl⟩

theorem construct_profile (task : STask) :
    (VEGraph.construct_task_graph task).profile = task.domains := by
  unfold VEGraph.construct_task_graph
  have h0 : (VEGraph.mk
      (task.domains.map (fun d => List.replicate d ({} : Node)))
      [] [] []).profile = task.domains := by
    unfold VEGraph.profile
    have hcomp : (List.length ∘ fun d => List.replicate d ({} : Node)) = id := by
      funext d
      simp
    show (task.domains.map (fun d => List.replicate d ({} : Node))).map
      List.length = task.domains
    rw [List.map_map, hcomp, List.map_id]
  refine foldl_pres (fun (g : VEGraph) => g.profile = task.domains) _ ?_ _ _ h0
  intro g op hg
  refine foldl_pres (fun (g : VEGraph) => g.profile = task.domains) _ ?_ _ _ hg
  intro g' pre hg'
  refine foldl_pres (fun (g : VEGraph) => g.profile = task.domains) _ ?_ _ _ hg'
  intro g2 eff hg2
  show (if pre ≠ eff then g2.add_edge pre eff else g2).profile = task.domains
  by_cases hne : pre ≠ eff
  · rw [if_pos hne, (add_edge_spec g2 pre eff).2.2.1]
    exact hg2
  · rw [if_neg hne]
    exact hg2

theorem initialize_queue_profile (task : STask) (g : VEGraph) :
    (g.initialize_queue task).profile = g.profile := by
  unfold VEGraph.initialize_queue
  refine foldl_pres (fun (g' : VEGraph) => g'.profile = g.profile) _ ?_
    task.facts g rfl
  intro g' f hg'
  show (g'.push_fact f).profile = g.profile
  rw [(push_fact_spec g' f).2.2.1]
  exact hg'

theorem initialize_queue_queue_inv (task : STask) :
    queue_inv ((VEGraph.construct_task_graph task).initialize_queue task) := by
  intro u
  by_cases hmem : u ∈ task.facts
  · exact init_fold_cov_mem task.facts _ u hmem
  · intro hr hflag
    exfalso
    apply hmem
    rw [facts_mem]
    rw [in_range_iff] at hr
    rw [initialize_queue_profile, construct_profile] at hr
    exact hr

theorem eliminate_profile (g : VEGraph) (fact : FactPair) :
    (g.eliminate fact).profile = g.profile := by
  simp only [VEGraph.eliminate]
  obtain ⟨pe, pd, pp, pfl, pcnt, pent, pext, phq⟩ := push_fold_spec _ _
  rw [pp]
  obtain ⟨sq, sp, sfl, scnt, sent, smono⟩ := shortcut_fold_spec _ _
  rw [sp, profile_set_node]

theorem final_profile (task : STask) :
    (VEGraph.final task).profile = task.domains := by
  unfold VEGraph.final VEGraph.make
  exact run_elimination_preserve (fun g => g.profile = task.domains)
    (fun g a g1 h hg => by
      obtain ⟨hn, _, _⟩ := pop_fact_preserves g a g1 h
      show g1.nodes.map List.length = task.domains
      rw [hn]
      exact hg)
    (fun g f hg => by
      show (g.eliminate f).profile = task.domains
      rw [eliminate_profile]
      exact hg)
    _ (by
      show (VEGraph.initialize_queue task
        (VEGraph.construct_task_graph task)).profile = task.domains
      rw [initialize_queue_profile, construct_profile])

theorem final_all_eliminated (task : STask) :
    (∀ u, (VEGraph.final task).in_range u →
      ((VEGraph.final task).get_node u).is_eliminated = true) ∧
    (VEGraph.final task).elimination_queue = [] := by
  unfold VEGraph.final VEGraph.make
  exact run_elimination_all_elim _ (initialize_queue_queue_inv task)

/-! Task edges survive into the final graph, and the auxiliary-variable
maps cover the keys the constraint families look up. -/

theorem construct_inner_mem (pre : FactPair) :
    ∀ (effs : List FactPair) (g : VEGraph) (eff : FactPair), eff ∈ effs →
    pre ≠ eff →
    (pre, eff) ∈ (effs.foldl (fun g e =>
      if pre ≠ e then g.add_edge pre e else g) g).edges := by
  intro effs
  induction effs with
  | nil =>
    intro g eff h
    simp at h
  | cons x xs ih =>
    intro g eff heff hne
    rw [List.foldl_cons]
    rcases List.mem_cons.mp heff with heq | hmem
    · subst heq
      rw [if_pos hne]
      refine foldl_pres (fun (g : VEGraph) => (pre, eff) ∈ g.edges) _ ?_ xs _ ?_
      · intro g' e h
        show (pre, eff) ∈ (if pre ≠ e then g'.add_edge pre e else g').edges
        by_cases hc : pre ≠ e
        · rw [if_pos hc]
          exact add_edge_mono g' pre e _ h
        · rw [if_neg hc]
          exact h
      · exact (add_edge_spec g pre eff).2.2.2.2.2.2.1
    · exact ih _ eff hmem hne

theorem construct_mid_mem (effs : List FactPair) (pre eff : FactPair)
    (heff : eff ∈ effs) (hne : pre ≠ eff) :
    ∀ (pres : List FactPair), pre ∈ pres →
    ∀ (g : VEGraph), (pre, eff) ∈ (pres.foldl (fun (g : VEGraph) p =>
      effs.foldl (fun g e => if p ≠ e then g.add_edge p e else g) g) g).edges := by
  intro pres
  induction pres with
  | nil =>
    intro h
    simp at h
  | cons q qs ih =>
    intro hpre g
    rw [List.foldl_cons]
    rcases List.mem_cons.mp hpre with heq | hmem
    · subst heq
      refine foldl_pres (fun (g : VEGraph) => (pre, eff) ∈ g.edges) _ ?_ qs _ ?_
      · intro g' p h
        refine foldl_pres (fun (g : VEGraph) => (pre, eff) ∈ g.edges) _ ?_
          effs _ h
        intro g2 e h2
        show (pre, eff) ∈ (if p ≠ e then g2.add_edge p e else g2).edges
        by_cases hc : p ≠ e
        · rw [if_pos hc]
          exact add_edge_mono g2 p e _ h2
        · rw [if_neg hc]
          exact h2
      · exact construct_inner_mem pre effs g eff heff hne
    · exact ih hmem _

theorem construct_outer_mem (op : STOperator) (pre eff : FactPair)
    (hpre : pre ∈ op.preconditions) (heff : eff ∈ op.effects)
    (hne : pre ≠ eff) :
    ∀ (ops : List STOperator), op ∈ ops →
    ∀ (g : VEGraph), (pre, eff) ∈ (ops.foldl (fun (g : VEGraph) op =>
      op.preconditions.foldl (fun g pre =>
        op.effects.foldl (fun g eff =>
          if pre ≠ eff then g.add_edge pre eff else g) g) g) g).edges := by
  intro ops
  induction ops with
  | nil =>
    intro h
    simp at h
  | cons o os ih =>
    intro hop g
    rw [List.foldl_cons]
    rcases List.mem_cons.mp hop with heq | hmem
    · subst heq
      refine foldl_pres (fun (g : VEGraph) => (pre, eff) ∈ g.edges) _ ?_ os _ ?_
      · intro g' o' h
        refine foldl_pres (fun (g : VEGraph) => (pre, eff) ∈ g.edges) _ ?_
          o'.preconditions _ h
        intro g2 p h2
        refine foldl_pres (fun (g : VEGraph) => (pre, eff) ∈ g.edges) _ ?_
          o'.effects _ h2
        intro g3 e h3
        show (pre, eff) ∈ (if p ≠ e then g3.add_edge p e else g3).edges
        by_cases hc : p ≠ e
        · rw [if_pos hc]
          exact add_edge_mono g3 p e _ h3
        · rw [if_neg hc]
          exact h3
      · exact construct_mid_mem op.effects pre eff heff hne op.preconditions
          hpre g
    · exact ih hmem _

theorem task_edge_in_final (task : STask) (e : FactPair × FactPair)
    (hte : task_edge task e) : e ∈ (VEGraph.final task).edges := by
  obtain ⟨op, hop, pre, hpre, eff, heff, hne, heq⟩ := hte
  subst heq
  unfold VEGraph.final VEGraph.make
  refine run_elimination_preserve (fun g => (pre, eff) ∈ g.edges) ?_ ?_ _ ?_
  · intro g a g1 h hg
    show (pre, eff) ∈ g1.edges
    rw [(pop_fact_preserves g a g1 h).2.1]
    exact hg
  · intro g f hg
    exact eliminate_edges_mono g f _ hg
  · show (pre, eff) ∈ (VEGraph.initialize_queue task
      (VEGraph.construct_task_graph task)).edges
    unfold VEGraph.initialize_queue
    refine foldl_pres (fun (g : VEGraph) => (pre, eff) ∈ g.edges) _ ?_
      task.facts _ ?_
    · intro g' f h
      show (pre, eff) ∈ (g'.push_fact f).edges
      rw [(push_fact_spec g' f).1]
      exact h
    · unfold VEGraph.construct_task_graph
      exact construct_outer_mem op pre eff hpre heff hne task.operators hop _

theorem assocFind_append_some {α : Type} [DecidableEq α]
    (m1 m2 : List (α × Nat)) (k : α) (v : Nat)
    (h : assocFind m1 k = some v) : assocFind (m1 ++ m2) k = some v := by
  induction m1 with
  | nil => simp [assocFind] at h
  | cons e rest ih =>
    rcases e with ⟨k', w⟩
    by_cases hk : k' = k
    · simp only [assocFind, if_pos hk] at h
      simp only [List.cons_append, assocFind, if_pos hk]
      exact h
    · simp only [assocFind, if_neg hk] at h
      simp only [List.cons_append, assocFind, if_neg hk]
      exact ih h

theorem assocFind_append_none {α : Type} [DecidableEq α]
    (m1 m2 : List (α × Nat)) (k : α)
    (h : assocFind m1 k = none) : assocFind (m1 ++ m2) k = assocFind m2 k := by
  induction m1 with
  | nil => simp [assocFind]
  | cons e rest ih =>
    rcases e with ⟨k', w⟩
    by_cases hk : k' = k
    · simp only [assocFind, if_pos hk] at h
      exact absurd h (by simp)
    · simp only [assocFind, if_neg hk] at h
      simp only [List.cons_append, assocFind, if_neg hk]
      exact ih h

theorem assocFind_isSome_iff {α : Type} [DecidableEq α]
    (m : List (α × Nat)) (k : α) :
    (assocFind m k).isSome = true ↔ k ∈ m.map Prod.fst := by
  induction m with
  | nil => simp [assocFind]
  | cons e rest ih =>
    rcases e with ⟨k', v⟩
    by_cases hk : k' = k
    · subst hk
      simp [assocFind]
    · rw [show assocFind ((k', v) :: rest) k = assocFind rest k from by
        simp [assocFind, hk]]
      simp only [List.map_cons, List.mem_cons]
      rw [ih]
      constructor
      · intro h
        exact Or.inr h
      · rintro (h | h)
        · exact absurd h.symm hk
        · exact h

theorem assocEmplace_isSome {α : Type} [DecidableEq α]
    (m : List (α × Nat)) (k : α) (v : Nat) :
    (assocFind (assocEmplace m k v) k).isSome = true := by
  unfold assocEmplace
  rcases hm : assocFind m k with _ | w
  · rw [assocFind_append_none m _ k hm]
    simp [assocFind]
  · rw [hm]
    rfl

theorem assocEmplace_mono {α : Type} [DecidableEq α]
    (m : List (α × Nat)) (k k' : α) (v : Nat)
    (h : (assocFind m k').isSome = true) :
    (assocFind (assocEmplace m k v) k').isSome = true := by
  unfold assocEmplace
  rcases hm : assocFind m k with _ | w
  · rcases hx : assocFind m k' with _ | w'
    · rw [hx] at h
      simp at h
    · rw [assocFind_append_some m _ k' w' hx]
      rfl
  · exact h

theorem inner_emplace_cov (b : Bool) (i : Nat) :
    ∀ (effs : List FactPair) (eff : FactPair), eff ∈ effs →
    ∀ (mv : VarMaps × List LPVariable),
    (assocFind ((effs.foldl (fun (mv : VarMaps × List LPVariable) eff =>
      ({ mv.1 with lp_var_id_f_maps_to :=
          (assocEmplace mv.1.lp_var_id_f_maps_to (eff.var, eff.value, i)
            mv.2.length) },
       mv.2 ++ [⟨0, 1, 0, b⟩])) mv).1).lp_var_id_f_maps_to
      (eff.var, eff.value, i)).isSome = true := by
  intro effs
  induction effs with
  | nil =>
    intro eff h
    simp at h
  | cons e es ih =>
    intro eff heff mv
    rw [List.foldl_cons]
    rcases List.mem_cons.mp heff with heq | hmem
    · subst heq
      refine foldl_pres (fun (mv : VarMaps × List LPVariable) =>
        (assocFind mv.1.lp_var_id_f_maps_to
          (eff.var, eff.value, i)).isSome = true) _ ?_ es _ ?_
      · intro mv' e' h
        show (assocFind (assocEmplace mv'.1.lp_var_id_f_maps_to
          (e'.var, e'.value, i) mv'.2.length)
          (eff.var, eff.value, i)).isSome = true
        exact assocEmplace_mono _ _ _ _ h
      · show (assocFind (assocEmplace mv.1.lp_var_id_f_maps_to
          (eff.var, eff.value, i) mv.2.length)
          (eff.var, eff.value, i)).isSome = true
        exact assocEmplace_isSome _ _ _
    · exact ih eff hmem _

theorem maps_to_fold_cov (task : STask) (b : Bool) :
    ∀ (ops : List Nat) (i : Nat), i ∈ ops →
    ∀ eff ∈ (task.get_op i).effects, ∀ (mv : VarMaps × List LPVariable),
    (assocFind ((ops.foldl (fun mv i =>
      (task.get_op i).effects.foldl
        (fun (mv : VarMaps × List LPVariable) eff =>
          ({ mv.1 with lp_var_id_f_maps_to :=
              (assocEmplace mv.1.lp_var_id_f_maps_to (eff.var, eff.value, i)
                mv.2.length) },
           mv.2 ++ [⟨0, 1, 0, b⟩])) mv) mv).1).lp_var_id_f_maps_to
      (eff.var, eff.value, i)).isSome = true := by
  intro ops
  induction ops with
  | nil =>
    intro i h
    simp at h
  | cons j js ih =>
    intro i hi eff heff mv
    rw [List.foldl_cons]
    rcases List.mem_cons.mp hi with heq | hmem
    · subst heq
      refine foldl_pres (fun (mv : VarMaps × List LPVariable) =>
        (assocFind mv.1.lp_var_id_f_maps_to
          (eff.var, eff.value, i)).isSome = true) _ ?_ js _ ?_
      · intro mv' j' h
        refine foldl_pres (fun (mv : VarMaps × List LPVariable) =>
          (assocFind mv.1.lp_var_id_f_maps_to
            (eff.var, eff.value, i)).isSome = true) _ ?_
          (task.get_op j').effects _ h
        intro mv2 e2 h2
        show (assocFind (assocEmplace mv2.1.lp_var_id_f_maps_to
          (e2.var, e2.value, j') mv2.2.length)
          (eff.var, eff.value, i)).isSome = true
        exact assocEmplace_mono _ _ _ _ h2
      · exact inner_emplace_cov b i (task.get_op i).effects eff heff mv
    · exact ih i hmem eff heff _

theorem create_aux_maps_to (task : STask) (b : Bool)
    (vars0 : List LPVariable) (g : VEGraph) (i : Nat) (hi : i ∈ op_ids task)
    (eff : FactPair) (heff : eff ∈ (task.get_op i).effects) :
    (get_var_f_maps_to (create_auxiliary_variables task b vars0 g).1
      eff i).isSome = true := by
  unfold get_var_f_maps_to
  simp only [create_auxiliary_variables]
  refine foldl_pres (fun (mv : VarMaps × List LPVariable) =>
    (assocFind mv.1.lp_var_id_f_maps_to
      (eff.var, eff.value, i)).isSome = true) _ ?_ g.edges _ ?_
  · intro mv e h
    exact h
  · exact maps_to_fold_cov task b (op_ids task) i hi eff heff _

theorem edge_fold_spec (b : Bool) :
    ∀ (edges : List (FactPair × FactPair)) (mv : VarMaps × List LPVariable),
    edges.Nodup →
    (∀ e ∈ edges, assocFind mv.1.lp_var_id_edge e = none) →
    ((edges.foldl (fun (mv : VarMaps × List LPVariable) edge =>
      ({ mv.1 with lp_var_id_edge :=
          assocEmplace mv.1.lp_var_id_edge edge mv.2.length },
       mv.2 ++ [⟨0, 1, 0, b⟩])) mv).1).lp_var_id_edge
      = mv.1.lp_var_id_edge
        ++ edges.zip (List.range' mv.2.length edges.length) := by
  intro edges
  induction edges with
  | nil =>
    intro mv _ _
    simp
  | cons e es ih =>
    intro mv hnd hfresh
    simp only [List.foldl_cons]
    have hfe : assocFind mv.1.lp_var_id_edge e = none :=
      hfresh e (List.mem_cons_self _ _)
    have hstep : assocEmplace mv.1.lp_var_id_edge e mv.2.length
        = mv.1.lp_var_id_edge ++ [(e, mv.2.length)] := by
      unfold assocEmplace
      rw [hfe]
    have hfresh2 : ∀ e' ∈ es,
        assocFind (mv.1.lp_var_id_edge ++ [(e, mv.2.length)]) e' = none := by
      intro e' he'
      rw [assocFind_append_none _ _ _ (hfresh e' (List.mem_cons_of_mem _ he'))]
      have hne : e ≠ e' := by
        intro hcon
        subst hcon
        exact (List.nodup_cons.mp hnd).1 he'
      simp [assocFind, hne]
    have hrec := ih ({ mv.1 with lp_var_id_edge :=
        (assocEmplace mv.1.lp_var_id_edge e
          mv.2.length) },
        mv.2 ++ [(⟨0, 1, 0, b⟩ : LPVariable)])
      (List.nodup_cons.mp hnd).2
      (by
        intro e' he'
        show assocFind (assocEmplace mv.1.lp_var_id_edge e mv.2.length) e'
          = none
        rw [hstep]
        exact hfresh2 e' he')
    rw [hrec]
    dsimp only
    rw [hstep]
    have hlen2 : (mv.2 ++ [(⟨0, 1, 0, b⟩ : LPVariable)]).length
        = mv.2.length + 1 := by simp
    rw [hlen2, List.append_assoc, List.singleton_append, List.length_cons,
      List.range'_succ, List.zip_cons_cons]

theorem edge_fold_exists (b : Bool) (edges : List (FactPair × FactPair))
    (hnd : edges.Nodup) (mv : VarMaps × List LPVariable)
    (hmv : mv.1.lp_var_id_edge = []) :
    ∃ start, ((edges.foldl (fun (mv : VarMaps × List LPVariable) edge =>
      ({ mv.1 with lp_var_id_edge :=
          assocEmplace mv.1.lp_var_id_edge edge mv.2.length },
       mv.2 ++ [⟨0, 1, 0, b⟩])) mv).1).lp_var_id_edge
      = edges.zip (List.range' start edges.length) := by
  refine ⟨mv.2.length, ?_⟩
  rw [edge_fold_spec b edges mv hnd (by intro e he; rw [hmv]; rfl), hmv]
  rfl

theorem create_aux_edge_map (task : STask) (b : Bool)
    (vars0 : List LPVariable) (g : VEGraph) (hnd : g.edges.Nodup) :
    ∃ start, (create_auxiliary_variables task b vars0 g).1.lp_var_id_edge
      = g.edges.zip (List.range' start g.edges.length) := by
  simp only [create_auxiliary_variables]
  apply edge_fold_exists b g.edges hnd
  refine foldl_pres (fun (mv : VarMaps × List LPVariable) =>
    mv.1.lp_var_id_edge = []) _ ?_ (op_ids task) _ ?_
  · intro mv i h
    refine foldl_pres (fun (mv : VarMaps × List LPVariable) =>
      mv.1.lp_var_id_edge = []) _ ?_ (task.get_op i).effects _ h
    intro mv' e h'
    exact h'
  · refine foldl_pres (fun (mv : VarMaps × List LPVariable) =>
      mv.1.lp_var_id_edge = []) _ ?_ (List.range task.domains.length) _ rfl
    intro mv v h
    exact h

theorem create_aux_edge_keys (task : STask) (b : Bool)
    (vars0 : List LPVariable) (g : VEGraph) (hnd : g.edges.Nodup) :
    (create_auxiliary_variables task b vars0 g).1.lp_var_id_edge.map
      Prod.fst = g.edges ∧
    ((create_auxiliary_variables task b vars0 g).1.lp_var_id_edge.map
      Prod.snd).Nodup := by
  obtain ⟨start, hmap⟩ := create_aux_edge_map task b vars0 g hnd
  rw [hmap]
  constructor
  · apply List.map_fst_zip
    simp
  · rw [List.map_snd_zip]
    · exact List.nodup_range' start g.edges.length
    · simp

theorem create_aux_edge_cov (task : STask) (b : Bool)
    (vars0 : List LPVariable) (g : VEGraph) (hnd : g.edges.Nodup)
    (e : FactPair × FactPair) (he : e ∈ g.edges) :
    (assocFind (create_auxiliary_variables task b vars0 g).1.lp_var_id_edge
      e).isSome = true := by
  rw [assocFind_isSome_iff, (create_aux_edge_keys task b vars0 g hnd).1]
  exact he

theorem foldl_option_isSome {γ β : Type} (step : Option γ → β → Option γ) :
    ∀ (l : List β),
    (∀ acc b, b ∈ l → acc.isSome = true → (step acc b).isSome = true) →
    ∀ acc, acc.isSome = true → (l.foldl step acc).isSome = true := by
  intro l
  induction l with
  | nil =>
    intro _ acc h
    exact h
  | cons x xs ih =>
    intro hstep acc h
    rw [List.foldl_cons]
    exact ih (fun a c hc ha => hstep a c (List.mem_cons_of_mem _ hc) ha) _
      (hstep acc x (List.mem_cons_self _ _) h)

theorem family2_add_achievers_isSome (task : STask) (m : VarMaps)
    (hmap : ∀ i ∈ op_ids task, ∀ eff ∈ (task.get_op i).effects,
      (get_var_f_maps_to m eff i).isSome = true)
    (con_ids : List (List Nat)) (constraints : List LPConstraint) :
    (family2_add_achievers task m con_ids constraints).isSome = true := by
  unfold family2_add_achievers
  refine foldl_option_isSome _ (op_ids task) ?_ _ rfl
  intro acc i hi hacc
  refine foldl_option_isSome _ (task.get_op i).effects ?_ _ hacc
  intro acc2 eff heff hacc2
  rcases acc2 with _ | cons2
  · simp at hacc2
  · rcases hv : get_var_f_maps_to m eff i with _ | v
    · have := hmap i hi eff heff
      rw [hv] at this
      simp at this
    · simp [hv]

theorem option_isSome_map {α β : Type} (f : α → β) (o : Option α) :
    (o.map f).isSome = o.isSome := by
  cases o <;> rfl

theorem family3_isSome (task : STask) (m : VarMaps)
    (cons : List LPConstraint)
    (hmap : ∀ i ∈ op_ids task, ∀ eff ∈ (task.get_op i).effects,
      (get_var_f_maps_to m eff i).isSome = true) :
    (family3_create task m cons).isSome = true := by
  unfold family3_create
  rw [option_isSome_map]
  refine foldl_option_isSome _ (op_ids task) ?_ _ rfl
  intro acc i hi hacc
  refine foldl_option_isSome _ (task.get_op i).effects ?_ _ hacc
  intro acc2 eff heff hacc2
  refine foldl_option_isSome _ (task.get_op i).preconditions ?_ _ hacc2
  intro acc3 pre hpre hacc3
  rcases acc3 with _ | mc
  · simp at hacc3
  · by_cases hpe : pre = eff
    · simp [hpe]
    · rcases hv : get_var_f_maps_to m eff i with _ | v
      · have := hmap i hi eff heff
        rw [hv] at this
        simp at this
      · simp [hpe, hv]

theorem family5_isSome (task : STask) (m : VarMaps)
    (cons : List LPConstraint)
    (hmap : ∀ i ∈ op_ids task, ∀ eff ∈ (task.get_op i).effects,
      (get_var_f_maps_to m eff i).isSome = true) :
    (family5_create task m cons).isSome = true := by
  unfold family5_create
  refine foldl_option_isSome _ (op_ids task) ?_ _ rfl
  intro acc i hi hacc
  refine foldl_option_isSome _ (task.get_op i).effects ?_ _ hacc
  intro acc2 eff heff hacc2
  rcases acc2 with _ | cons2
  · simp at hacc2
  · rcases hv : get_var_f_maps_to m eff i with _ | v
    · have := hmap i hi eff heff
      rw [hv] at this
      simp at this
    · simp [hv]

theorem family6_isSome (task : STask) (m : VarMaps)
    (cons : List LPConstraint)
    (hmap : ∀ i ∈ op_ids task, ∀ eff ∈ (task.get_op i).effects,
      (get_var_f_maps_to m eff i).isSome = true)
    (hedge : ∀ i ∈ op_ids task, ∀ pre ∈ (task.get_op i).preconditions,
      ∀ eff ∈ (task.get_op i).effects,
      (assocFind m.lp_var_id_edge (pre, eff)).isSome = true) :
    (family6_create task m cons).isSome = true := by
  unfold family6_create
  refine foldl_option_isSome _ (op_ids task) ?_ _ rfl
  intro acc i hi hacc
  refine foldl_option_isSome _ (task.get_op i).preconditions ?_ _ hacc
  intro acc2 pre hpre hacc2
  refine foldl_option_isSome _ (task.get_op i).effects ?_ _ hacc2
  intro acc3 eff heff hacc3
  rcases acc3 with _ | cons3
  · simp at hacc3
  · rcases he : assocFind m.lp_var_id_edge (pre, eff) with _ | eid
    · have := hedge i hi pre hpre eff heff
      rw [he] at this
      simp at this
    · rcases hv : get_var_f_maps_to m eff i with _ | v
      · have := hmap i hi eff heff
        rw [hv] at this
        simp at this
      · simp [he, hv]

theorem family7_isSome (m : VarMaps) (edges : List (FactPair × FactPair))
    (cons : List LPConstraint)
    (hcov : ∀ e ∈ edges, (assocFind m.lp_var_id_edge e).isSome = true) :
    (family7_create m edges cons).isSome = true := by
  unfold family7_create
  refine foldl_option_isSome _ edges ?_ _ rfl
  intro acc e he hacc
  rcases acc with _ | cons2
  · simp at hacc
  · rcases hrev : assocFind m.lp_var_id_edge (e.2, e.1) with _ | rid
    · simp [hrev]
    · rcases hself : assocFind m.lp_var_id_edge e with _ | eid
      · have := hcov e he
        rw [hself] at this
        simp at this
      · simp [hrev, hself]

theorem family8_isSome (m : VarMaps)
    (delta : List (FactPair × FactPair × FactPair))
    (cons : List LPConstraint)
    (hcov : ∀ t ∈ delta,
      (assocFind m.lp_var_id_edge (t.1, t.2.1)).isSome = true ∧
      (assocFind m.lp_var_id_edge (t.2.1, t.2.2)).isSome = true ∧
      (assocFind m.lp_var_id_edge (t.1, t.2.2)).isSome = true) :
    (family8_create m delta cons).isSome = true := by
  unfold family8_create
  refine foldl_option_isSome _ delta ?_ _ rfl
  intro acc t ht hacc
  rcases acc with _ | cons2
  · simp at hacc
  · obtain ⟨hc1, hc2, hc3⟩ := hcov t ht
    rcases h1 : assocFind m.lp_var_id_edge (t.1, t.2.1) with _ | e1
    · rw [h1] at hc1
      simp at hc1
    · rcases h2 : assocFind m.lp_var_id_edge (t.2.1, t.2.2) with _ | e2
      · rw [h2] at hc2
        simp at hc2
      · rcases h3 : assocFind m.lp_var_id_edge (t.1, t.2.2) with _ | e3
        · rw [h3] at hc3
          simp at hc3
        · simp [h1, h2, h3]

theorem create_constraints_isSome (task : STask) (m : VarMaps)
    (vars : List LPVariable) (cons : List LPConstraint) (g : VEGraph)
    (hmap : ∀ i ∈ op_ids task, ∀ eff ∈ (task.get_op i).effects,
      (get_var_f_maps_to m eff i).isSome = true)
    (hedge6 : ∀ i ∈ op_ids task, ∀ pre ∈ (task.get_op i).preconditions,
      ∀ eff ∈ (task.get_op i).effects,
      (assocFind m.lp_var_id_edge (pre, eff)).isSome = true)
    (hedge7 : ∀ e ∈ g.edges, (assocFind m.lp_var_id_edge e).isSome = true)
    (hedge8 : ∀ t ∈ g.delta,
      (assocFind m.lp_var_id_edge (t.1, t.2.1)).isSome = true ∧
      (assocFind m.lp_var_id_edge (t.2.1, t.2.2)).isSome = true ∧
      (assocFind m.lp_var_id_edge (t.1, t.2.2)).isSome = true) :
    (create_constraints task m vars cons g).isSome = true := by
  simp only [create_constraints]
  rcases h2 : family2_add_achievers task m (family2_create task m cons).1
      (family2_create task m cons).2 with _ | c2
  · exfalso
    have hl := family2_add_achievers_isSome task m hmap
      (family2_create task m cons).1 (family2_create task m cons).2
    rw [h2] at hl
    simp at hl
  · rcases h3 : family3_create task m c2 with _ | c3
    · exfalso
      have hl := family3_isSome task m c2 hmap
      rw [h3] at hl
      simp at hl
    · rcases h5 : family5_create task m c3 with _ | c5
      · exfalso
        have hl := family5_isSome task m c3 hmap
        rw [h5] at hl
        simp at hl
      · rcases h6 : family6_create task m c5 with _ | c6
        · exfalso
          have hl := family6_isSome task m c5 hmap hedge6
          rw [h6] at hl
          simp at hl
        · rcases h7 : family7_create m g.edges c6 with _ | c7
          · exfalso
            have hl := family7_isSome m g.edges c6 hedge7
            rw [h7] at hl
            simp at hl
          · rcases h8 : family8_create m g.delta c7 with _ | c8
            · exfalso
              have hl := family8_isSome m g.delta c7 hedge8
              rw [h8] at hl
              simp at hl
            · simp [h2, h3, h5, h6, h7, h8]

theorem get_op_mem (task : STask) (i : Nat) (hi : i ∈ op_ids task) :
    task.get_op i ∈ task.operators := by
  unfold op_ids at hi
  rw [List.mem_range] at hi
  unfold STask.get_op
  rw [List.getD_eq_getElem _ _ hi]
  exact List.getElem_mem hi

theorem initialize_constraints_isSome (h : DeleteRelaxationConstraintsRR)
    (task : STask) (lp : LinearProgram)
    (hne : ∀ op ∈ task.operators, ∀ pre ∈ op.preconditions,
      ∀ eff ∈ op.effects, pre ≠ eff) :
    (h.initialize_constraints task lp).isSome = true := by
  have hnd : (VEGraph.final task).edges.Nodup := (final_graph_inv task).1
  have hmap : ∀ i ∈ op_ids task, ∀ eff ∈ (task.get_op i).effects,
      (get_var_f_maps_to (create_auxiliary_variables task h.use_integer_vars
        lp.vars (VEGraph.final task)).1 eff i).isSome = true :=
    fun i hi eff heff =>
      create_aux_maps_to task h.use_integer_vars lp.vars
        (VEGraph.final task) i hi eff heff
  have hedge6 : ∀ i ∈ op_ids task, ∀ pre ∈ (task.get_op i).preconditions,
      ∀ eff ∈ (task.get_op i).effects,
      (assocFind (create_auxiliary_variables task h.use_integer_vars
        lp.vars (VEGraph.final task)).1.lp_var_id_edge
        (pre, eff)).isSome = true := by
    intro i hi pre hpre eff heff
    have hopmem := get_op_mem task i hi
    have hne' := hne (task.get_op i) hopmem pre hpre eff heff
    have hmem : (pre, eff) ∈ (VEGraph.final task).edges :=
      task_edge_in_final task (pre, eff)
        ⟨task.get_op i, hopmem, pre, hpre, eff, heff, hne', rfl⟩
    exact create_aux_edge_cov task h.use_integer_vars lp.vars
      (VEGraph.final task) hnd _ hmem
  have hedge7 : ∀ e ∈ (VEGraph.final task).edges,
      (assocFind (create_auxiliary_variables task h.use_integer_vars
        lp.vars (VEGraph.final task)).1.lp_var_id_edge e).isSome = true :=
    fun e he => create_aux_edge_cov task h.use_integer_vars lp.vars
      (VEGraph.final task) hnd e he
  have hedge8 : ∀ t ∈ (VEGraph.final task).delta,
      (assocFind (create_auxiliary_variables task h.use_integer_vars
        lp.vars (VEGraph.final task)).1.lp_var_id_edge
          (t.1, t.2.1)).isSome = true ∧
      (assocFind (create_auxiliary_variables task h.use_integer_vars
        lp.vars (VEGraph.final task)).1.lp_var_id_edge
          (t.2.1, t.2.2)).isSome = true ∧
      (assocFind (create_auxiliary_variables task h.use_integer_vars
        lp.vars (VEGraph.final task)).1.lp_var_id_edge
          (t.1, t.2.2)).isSome = true := by
    intro t ht
    obtain ⟨e1, e2, e3, _⟩ := (final_graph_inv task).2.2.1 t ht
    exact ⟨create_aux_edge_cov task h.use_integer_vars lp.vars _ hnd _ e1,
      create_aux_edge_cov task h.use_integer_vars lp.vars _ hnd _ e2,
      create_aux_edge_cov task h.use_integer_vars lp.vars _ hnd _ e3⟩
  simp only [DeleteRelaxationConstraintsRR.initialize_constraints,
    initialize_constraints_with]
  rcases hx : create_constraints task
      (create_auxiliary_variables task h.use_integer_vars lp.vars
        (VEGraph.final task)).1
      (create_auxiliary_variables task h.use_integer_vars lp.vars
        (VEGraph.final task)).2
      lp.constraints (VEGraph.final task) with _ | r
  · exfalso
    have hl := create_constraints_isSome task
      (create_auxiliary_variables task h.use_integer_vars lp.vars
        (VEGraph.final task)).1
      (create_auxiliary_variables task h.use_integer_vars lp.vars
        (VEGraph.final task)).2
      lp.constraints (VEGraph.final task) hmap hedge6 hedge7 hedge8
    rw [hx] at hl
    simp at hl
  · simp [hx]

/-- The row constraint family 7 emits for a directed edge `e` (on its
reverse edge being present in the map), `none` when the reverse edge is
absent. -/
def family7_row (m : VarMaps) (e : FactPair × FactPair) : Option LPConstraint :=
  match assocFind m.lp_var_id_edge (e.2, e.1), assocFind m.lp_var_id_edge e with
  | some rid, some eid =>
    some (((LPConstraint.mk .neg_infinity (.finite 1) []).insert eid 1).insert
      rid 1)
  | _, _ => none

theorem family7_shape (m : VarMaps) :
    ∀ (edges : List (FactPair × FactPair)) (cons : List LPConstraint),
    (∀ e ∈ edges, (assocFind m.lp_var_id_edge e).isSome = true) →
    family7_create m edges cons
      = some (cons ++ edges.filterMap (family7_row m)) := by
  intro edges
  induction edges with
  | nil =>
    intro cons _
    simp [family7_create]
  | cons e es ih =>
    intro cons hcov
    unfold family7_create at ih ⊢
    rcases hrev : assocFind m.lp_var_id_edge (e.2, e.1) with _ | rid
    · have hrow : family7_row m e = none := by
        simp [family7_row, hrev]
      simp only [List.foldl_cons, hrev, List.filterMap_cons, hrow]
      exact ih cons (fun e' he' => hcov e' (List.mem_cons_of_mem _ he'))
    · rcases hself : assocFind m.lp_var_id_edge e with _ | eid
      · exfalso
        have := hcov e (List.mem_cons_self _ _)
        rw [hself] at this
        simp at this
      · have hrow : family7_row m e = some (((LPConstraint.mk .neg_infinity
            (.finite 1) []).insert eid 1).insert rid 1) := by
          simp [family7_row, hrev, hself]
        simp only [List.foldl_cons, hrev, hself, List.filterMap_cons, hrow]
        rw [ih (cons ++ [((LPConstraint.mk .neg_infinity (.finite 1)
          []).insert eid 1).insert rid 1])
          (fun e' he' => hcov e' (List.mem_cons_of_mem _ he'))]
        simp

theorem family4_pointwise (m : VarMaps) :
    ∀ (goals : List FactPair) (vars : List LPVariable) (i : Nat),
    (goals.foldl (fun vars goal =>
      let idx := get_var_f_defined m goal
      vars.set idx { vars.getD idx default with lower_bound := 1 }) vars).getD
        i default
      = if i ∈ goals.map (get_var_f_defined m) ∧ i < vars.length then
          { vars.getD i default with lower_bound := 1 }
        else vars.getD i default := by
  intro goals
  induction goals with
  | nil =>
    intro vars i
    simp
  | cons goal gs ih =>
    intro vars i
    simp only [List.foldl_cons]
    rw [ih]
    have hlenset : (vars.set (get_var_f_defined m goal)
        { vars.getD (get_var_f_defined m goal) default with
          lower_bound := 1 }).length = vars.length := List.length_set _ _ _
    rw [hlenset]
    by_cases hij : i = get_var_f_defined m goal
    · by_cases hlen : i < vars.length
      · have hget : (vars.set (get_var_f_defined m goal)
            { vars.getD (get_var_f_defined m goal) default with
              lower_bound := 1 }).getD i default
            = { vars.getD i default with lower_bound := 1 } := by
          rw [hij]
          exact getD_set_self _ _ _ (by rw [← hij]; exact hlen)
        rw [hget]
        by_cases hmem : i ∈ gs.map (get_var_f_defined m)
        · rw [if_pos ⟨hmem, hlen⟩, if_pos ⟨by simp [hij], hlen⟩]
        · rw [if_neg (fun hc => hmem hc.1), if_pos ⟨by simp [hij], hlen⟩]
      · have hsetnoop : vars.set (get_var_f_defined m goal)
            { vars.getD (get_var_f_defined m goal) default with
              lower_bound := 1 } = vars := by
          apply List.set_eq_of_length_le
          rw [← hij]
          omega
        rw [hsetnoop, if_neg (fun hc => hlen hc.2), if_neg (fun hc => hlen hc.2)]
    · have hget : (vars.set (get_var_f_defined m goal)
          { vars.getD (get_var_f_defined m goal) default with
            lower_bound := 1 }).getD i default
          = vars.getD i default :=
        getD_set_ne _ _ _ (fun hc => hij hc.symm)
      rw [hget]
      by_cases hmem : i ∈ gs.map (get_var_f_defined m)
      · by_cases hlen : i < vars.length
        · rw [if_pos ⟨hmem, hlen⟩, if_pos ⟨by
            simp only [List.map_cons, List.mem_cons]
            exact Or.inr hmem, hlen⟩]
        · rw [if_neg (fun hc => hlen hc.2), if_neg (fun hc => hlen hc.2)]
      · have hnotmem : i ∉ (goal :: gs).map (get_var_f_defined m) := by
          simp only [List.map_cons, List.mem_cons]
          rintro (hc | hc)
          · exact hij hc
          · exact hmem hc
        rw [if_neg (fun hc => hmem hc.1), if_neg (fun hc => hnotmem hc.1)]

theorem set_both_spec (s : LPSolverState) (i : Nat) (lb ub : LPBound) :
    ((s.set_constraint_lower_bound i lb).set_constraint_upper_bound
      i ub).vars = s.vars ∧
    ((s.set_constraint_lower_bound i lb).set_constraint_upper_bound
      i ub).constraints.length = s.constraints.length ∧
    ∀ j, ((s.set_constraint_lower_bound i lb).set_constraint_upper_bound
      i ub).constraints.getD j default
      = if j = i ∧ j < s.constraints.length then
          { s.constraints.getD j default with
            lower_bound := lb, upper_bound := ub }
        else s.constraints.getD j default := by
  refine ⟨rfl, by
    simp [LPSolverState.set_constraint_lower_bound,
      LPSolverState.set_constraint_upper_bound, List.length_set], fun j => ?_⟩
  simp only [LPSolverState.set_constraint_lower_bound,
    LPSolverState.set_constraint_upper_bound]
  by_cases hji : j = i
  · subst hji
    by_cases hlen : j < s.constraints.length
    · have hlen1 : j < (s.constraints.set j
          { s.constraints.getD j default with lower_bound := lb }).length := by
        rw [List.length_set]
        exact hlen
      rw [if_pos ⟨rfl, hlen⟩, getD_set_self _ _ _ hlen1,
        getD_set_self _ _ _ hlen]
    · have h1 : s.constraints.set j
          { s.constraints.getD j default with lower_bound := lb }
          = s.constraints := List.set_eq_of_length_le (by omega)
      rw [if_neg (fun hc => hlen hc.2), h1,
        List.set_eq_of_length_le (by omega)]
  · rw [if_neg (fun hc => hji hc.1), getD_set_ne _ _ _ (fun hc => hji hc.symm),
      getD_set_ne _ _ _ (fun hc => hji hc.symm)]

theorem bounds_fold_spec (lb ub : LPBound) (cid : FactPair → Nat) :
    ∀ (l : List FactPair) (s : LPSolverState),
    ((l.foldl (fun s f =>
      (s.set_constraint_lower_bound (cid f) lb).set_constraint_upper_bound
        (cid f) ub) s).vars = s.vars) ∧
    ((l.foldl (fun s f =>
      (s.set_constraint_lower_bound (cid f) lb).set_constraint_upper_bound
        (cid f) ub) s).constraints.length = s.constraints.length) ∧
    (∀ j, (l.foldl (fun s f =>
      (s.set_constraint_lower_bound (cid f) lb).set_constraint_upper_bound
        (cid f) ub) s).constraints.getD j default
      = if j ∈ l.map cid ∧ j < s.constraints.length then
          { s.constraints.getD j default with
            lower_bound := lb, upper_bound := ub }
        else s.constraints.getD j default) := by
  intro l
  induction l with
  | nil =>
    intro s
    exact ⟨rfl, rfl, fun j => by simp⟩
  | cons f fs ih =>
    intro s
    simp only [List.foldl_cons]
    obtain ⟨hv1, hl1, hp1⟩ := set_both_spec s (cid f) lb ub
    obtain ⟨hv2, hl2, hp2⟩ := ih ((s.set_constraint_lower_bound (cid f)
      lb).set_constraint_upper_bound (cid f) ub)
    refine ⟨by rw [hv2, hv1], by rw [hl2, hl1], fun j => ?_⟩
    rw [hp2 j, hl1]
    by_cases hlen : j < s.constraints.length
    · by_cases hmem : j ∈ fs.map cid
      · rw [if_pos ⟨hmem, hlen⟩, if_pos ⟨by simp [hmem], hlen⟩, hp1 j]
        by_cases hji : j = cid f
        · rw [if_pos ⟨hji, hlen⟩]
        · rw [if_neg (fun hc => hji hc.1)]
      · rw [if_neg (fun hc => hmem hc.1), hp1 j]
        by_cases hji : j = cid f
        · rw [if_pos ⟨hji, hlen⟩, if_pos ⟨by simp [hji], hlen⟩]
        · have hnotmem : j ∉ (f :: fs).map cid := by
            simp only [List.map_cons, List.mem_cons]
            rintro (hc | hc)
            · exact hji hc
            · exact hmem hc
          rw [if_neg (fun hc => hji hc.1), if_neg (fun hc => hnotmem hc.1)]
    · rw [if_neg (fun hc => hlen hc.2), hp1 j, if_neg (fun hc => hlen hc.2),
        if_neg (fun hc => hlen hc.2)]

theorem drr_ext (a b : DeleteRelaxationConstraintsRR)
    (h1 : a.use_time_vars = b.use_time_vars)
    (h2 : a.use_integer_vars = b.use_integer_vars) (h3 : a.maps = b.maps)
    (h4 : a.lp_con_id_f_defined = b.lp_con_id_f_defined)
    (h5 : a.last_state = b.last_state) : a = b := by
  cases a
  cases b
  cases h1
  cases h2
  cases h3
  cases h4
  cases h5
  rfl

theorem lpstate_ext (a b : LPSolverState) (hv : a.vars = b.vars)
    (hc : a.constraints = b.constraints) : a = b := by
  cases a
  cases b
  cases hv
  cases hc
  rfl

theorem list_ext_getD {α : Type} [Inhabited α] (l1 l2 : List α)
    (hlen : l1.length = l2.length)
    (h : ∀ i, l1.getD i default = l2.getD i default) : l1 = l2 := by
  apply List.ext_getElem hlen
  intro i h1 h2
  have := h i
  rwa [List.getD_eq_getElem _ _ h1, List.getD_eq_getElem _ _ h2] at this

theorem prod_ext_pair {α β : Type} (a b : α × β) (h1 : a.1 = b.1)
    (h2 : a.2 = b.2) : a = b := by
  cases a
  cases b
  exact congrArg₂ Prod.mk h1 h2

theorem update_set_fold_decompose :
    ∀ (state : List FactPair) (h : DeleteRelaxationConstraintsRR)
      (s : LPSolverState),
    (state.foldl (fun (hs : DeleteRelaxationConstraintsRR × LPSolverState) f =>
      ({ hs.1 with last_state := hs.1.last_state ++ [f] },
       (hs.2.set_constraint_lower_bound (hs.1.get_constraint_id f)
         (.finite 1)).set_constraint_upper_bound (hs.1.get_constraint_id f)
         (.finite 1))) (h, s))
      = ({ h with last_state := h.last_state ++ state },
         state.foldl (fun s f =>
           (s.set_constraint_lower_bound (h.get_constraint_id f)
             (.finite 1)).set_constraint_upper_bound (h.get_constraint_id f)
             (.finite 1)) s) := by
  intro state
  induction state with
  | nil =>
    intro h s
    simp
  | cons f fs ih =>
    intro h s
    simp only [List.foldl_cons]
    rw [ih]
    refine prod_ext_pair _ _ ?_ ?_
    · refine drr_ext _ _ rfl rfl rfl rfl ?_
      simp
    · rfl

theorem update_constraints_spec (h : DeleteRelaxationConstraintsRR)
    (state : List FactPair) (s : LPSolverState) :
    (h.update_constraints state s).1 = false ∧
    (h.update_constraints state s).2.1 = { h with last_state := state } ∧
    (h.update_constraints state s).2.2.vars = s.vars ∧
    (h.update_constraints state s).2.2.constraints.length
      = s.constraints.length ∧
    ∀ j, (h.update_constraints state s).2.2.constraints.getD j default
      = if j ∈ state.map h.get_constraint_id ∧ j < s.constraints.length then
          { s.constraints.getD j default with
            lower_bound := .finite 1, upper_bound := .finite 1 }
        else if j ∈ h.last_state.map h.get_constraint_id
            ∧ j < s.constraints.length then
          { s.constraints.getD j default with
            lower_bound := .finite 0, upper_bound := .finite 0 }
        else s.constraints.getD j default := by
  have hcid : ({ h with last_state := ([] : List FactPair) }
      : DeleteRelaxationConstraintsRR).get_constraint_id
      = h.get_constraint_id := rfl
  obtain ⟨rv, rl, rp⟩ := bounds_fold_spec (.finite 0) (.finite 0)
    h.get_constraint_id h.last_state s
  obtain ⟨sv, sl, sp⟩ := bounds_fold_spec (.finite 1) (.finite 1)
    (({ h with last_state := [] }
      : DeleteRelaxationConstraintsRR).get_constraint_id)
    state (h.last_state.foldl (fun s f =>
      (s.set_constraint_lower_bound (h.get_constraint_id f)
        (.finite 0)).set_constraint_upper_bound (h.get_constraint_id f)
        (.finite 0)) s)
  simp only [DeleteRelaxationConstraintsRR.update_constraints]
  rw [update_set_fold_decompose]
  refine ⟨by trivial, drr_ext _ _ rfl rfl rfl rfl rfl, sv.trans rv,
    sl.trans rl, fun j => ?_⟩
  refine (sp j).trans ?_
  rw [hcid, rl, rp j]
  by_cases hset : j ∈ state.map h.get_constraint_id
      ∧ j < s.constraints.length
  · rw [if_pos hset, if_pos hset]
    by_cases hreset : j ∈ h.last_state.map h.get_constraint_id
        ∧ j < s.constraints.length
    · rw [if_pos hreset]
    · rw [if_neg hreset]
  · rw [if_neg hset, if_neg hset]

theorem update_reset_bounds (h : DeleteRelaxationConstraintsRR)
    (state : List FactPair) (s : LPSolverState) (f : FactPair)
    (hf : f ∈ state) :
    ((((h.update_constraints state s).2.1.update_constraints []
      (h.update_constraints state s).2.2).2.2.constraints.getD
        (h.get_constraint_id f) default).lower_bound = .finite 0) ∧
    ((((h.update_constraints state s).2.1.update_constraints []
      (h.update_constraints state s).2.2).2.2.constraints.getD
        (h.get_constraint_id f) default).upper_bound = .finite 0) := by
  obtain ⟨_, hh1, _, hlen1, hp1⟩ := update_constraints_spec h state s
  rw [hh1]
  have hcid2 : ({ h with last_state := state }
      : DeleteRelaxationConstraintsRR).get_constraint_id
      = h.get_constraint_id := rfl
  obtain ⟨_, _, _, hlen2, hp2⟩ := update_constraints_spec
    { h with last_state := state } [] (h.update_constraints state s).2.2
  have hp2j := hp2 (h.get_constraint_id f)
  rw [hcid2] at hp2j
  rw [List.map_nil] at hp2j
  have hememp : ¬(h.get_constraint_id f ∈ ([] : List Nat)
      ∧ h.get_constraint_id f
        < (h.update_constraints state s).2.2.constraints.length) := by
    rintro ⟨hc, _⟩
    simp at hc
  rw [if_neg hememp] at hp2j
  dsimp only at hp2j
  rw [hp2j]
  by_cases hlt : h.get_constraint_id f
      < (h.update_constraints state s).2.2.constraints.length
  · rw [if_pos ⟨List.mem_map_of_mem _ hf, hlt⟩]
    exact ⟨rfl, rfl⟩
  · rw [if_neg (fun hc => hlt hc.2)]
    have hdef : (h.update_constraints state s).2.2.constraints.getD
        (h.get_constraint_id f) default = default :=
      List.getD_eq_default _ _ (by omega)
    rw [hdef]
    exact ⟨rfl, rfl⟩

theorem update_idempotent (h : DeleteRelaxationConstraintsRR)
    (state : List FactPair) (s : LPSolverState) :
    (h.update_constraints state s).2.1.update_constraints state
      (h.update_constraints state s).2.2
      = (false, (h.update_constraints state s).2.1,
        (h.update_constraints state s).2.2) := by
  obtain ⟨hb1, hh1, hv1, hlen1, hp1⟩ := update_constraints_spec h state s
  rw [hh1]
  have hcid2 : ({ h with last_state := state }
      : DeleteRelaxationConstraintsRR).get_constraint_id
      = h.get_constraint_id := rfl
  obtain ⟨hb2, hh2, hv2, hlen2, hp2⟩ := update_constraints_spec
    { h with last_state := state } state (h.update_constraints state s).2.2
  refine prod_ext_pair _ _ hb2 (prod_ext_pair _ _ ?_ ?_)
  · rw [hh2]
  · refine lpstate_ext _ _ hv2 (list_ext_getD _ _ hlen2 fun j => ?_)
    have hp2j := hp2 j
    rw [hcid2] at hp2j
    dsimp only at hp2j
    rw [hlen1] at hp2j
    rw [hp2j, hp1 j]
    by_cases hset : j ∈ state.map h.get_constraint_id
        ∧ j < s.constraints.length
    · simp only [if_pos hset]
    · simp only [if_neg hset]

theorem family7_row_isSome (m : VarMaps) (e : FactPair × FactPair)
    (hself : (assocFind m.lp_var_id_edge e).isSome = true) :
    (family7_row m e).isSome
      = (assocFind m.lp_var_id_edge (e.2, e.1)).isSome := by
  rcases hrev : assocFind m.lp_var_id_edge (e.2, e.1) with _ | rid
  · rcases hs : assocFind m.lp_var_id_edge e with _ | eid
    · rw [hs] at hself
      simp at hself
    · simp [family7_row, hrev, hs]
  · rcases hs : assocFind m.lp_var_id_edge e with _ | eid
    · rw [hs] at hself
      simp at hself
    · simp [family7_row, hrev, hs]

theorem create_constraints_vars (task : STask) (m : VarMaps)
    (vars : List LPVariable) (cons : List LPConstraint) (g : VEGraph)
    (r : List (List Nat) × List LPVariable × List LPConstraint)
    (hr : create_constraints task m vars cons g = some r) :
    r.2.1 = family4_apply task m vars := by
  simp only [create_constraints] at hr
  rcases h2 : family2_add_achievers task m (family2_create task m cons).1
      (family2_create task m cons).2 with _ | c2 <;> simp only [h2] at hr
  · simp at hr
  · rcases h3 : family3_create task m c2 with _ | c3 <;> simp only [h3] at hr
    · simp at hr
    · rcases h5 : family5_create task m c3 with _ | c5 <;> simp only [h5] at hr
      · simp at hr
      · rcases h6 : family6_create task m c5 with _ | c6 <;>
          simp only [h6] at hr
        · simp at hr
        · rcases h7 : family7_create m g.edges c6 with _ | c7 <;>
            simp only [h7] at hr
          · simp at hr
          · rcases h8 : family8_create m g.delta c7 with _ | c8 <;>
              simp only [h8] at hr
            · simp at hr
            · simp only [Option.some.injEq] at hr
              rw [← hr]

/-! The claims. -/

/-- C1 (amended): `update_constraints` returns `false` to its caller on
every call — not `true`.  The C++ return value reports dead-end
detection, which this generator never signals, so the caller is not told
that the model changed. -/
theorem c1_update_constraints_returns_false
    (h : DeleteRelaxationConstraintsRR) (state : List FactPair)
    (s : LPSolverState) : (h.update_constraints state s).1 = false :=
  (update_constraints_spec h state s).1

/-- C1 counterexample: on the model built by `initialize_constraints` for
`exTask1`, the first `update_constraints` call with the state
`{A = 0, B = 0}` modifies constraint bounds (the solver state after the
call differs from the loaded one — the family-2 rows of the state's facts
are forced to `[1,1]`), and still returns `false`, refuting the claim
that the returned value is `true` on every call. -/
theorem c1_counterexample_bounds_changed_yet_false :
    (((DeleteRelaxationConstraintsRR.init
      ⟨false, false⟩).initialize_constraints exTask1 lp0).map (fun r =>
        (r.1.update_constraints [⟨0, 0⟩, ⟨1, 0⟩]
          ⟨r.2.vars, r.2.constraints⟩).1) = some false) ∧
    (((DeleteRelaxationConstraintsRR.init
      ⟨false, false⟩).initialize_constraints exTask1 lp0).map (fun r =>
        (r.1.update_constraints [⟨0, 0⟩, ⟨1, 0⟩]
          ⟨r.2.vars, r.2.constraints⟩).2.2)
      ≠ ((DeleteRelaxationConstraintsRR.init
        ⟨false, false⟩).initialize_constraints exTask1 lp0).map (fun r =>
          (⟨r.2.vars, r.2.constraints⟩ : LPSolverState))) := by
  constructor
  · unfold DeleteRelaxationConstraintsRR.initialize_constraints
    rw [final_eq_fuel exTask1 10 (by decide)]
    decide
  · unfold DeleteRelaxationConstraintsRR.initialize_constraints
    rw [final_eq_fuel exTask1 10 (by decide)]
    decide

/-- C2: setting `use_time_vars := true` surfaces no configuration error:
heuristic construction completes (`initialize_constraints` returns `some`)
and produces exactly the LP produced with the flag off — the flag is
silently ignored (constraint family 9 is an unimplemented TODO in the
source, while the plugin documentation presents the option as
effective). -/
theorem c2_use_time_vars_silently_ignored :
    ((DeleteRelaxationConstraintsRR.init ⟨true, false⟩).initialize_constraints
      exTask1 lp0).isSome = true ∧
    ((DeleteRelaxationConstraintsRR.init ⟨true, false⟩).initialize_constraints
        exTask1 lp0).map (fun r => r.2)
      = ((DeleteRelaxationConstraintsRR.init
          ⟨false, false⟩).initialize_constraints exTask1 lp0).map
        (fun r => r.2) := by
  constructor
  · unfold DeleteRelaxationConstraintsRR.initialize_constraints
    rw [final_eq_fuel exTask1 10 (by decide)]
    decide
  · unfold DeleteRelaxationConstraintsRR.initialize_constraints
    rw [final_eq_fuel exTask1 10 (by decide)]
    decide

/-- C3 (amended): for every task in which no operator has a precondition
equal to one of its effects, every `f_maps_to`/`edge_order` lookup made
while building constraint families 2-8 refers to a key created
beforehand, so the whole model construction succeeds; and the edge
`(pre, eff)` looked up by family 6 exists in the final augmented graph
for every operator, precondition and effect.  The original claim is
wrong for tasks with an operator whose precondition equals an effect:
family 6 then looks up an edge never created (see the
counterexample). -/
theorem c3_lookups_succeed_when_pre_neq_eff
    (h : DeleteRelaxationConstraintsRR) (task : STask) (lp : LinearProgram)
    (hne : ∀ op ∈ task.operators, ∀ pre ∈ op.preconditions,
      ∀ eff ∈ op.effects, pre ≠ eff) :
    (h.initialize_constraints task lp).isSome = true ∧
    ∀ op ∈ task.operators, ∀ pre ∈ op.preconditions, ∀ eff ∈ op.effects,
      (pre, eff) ∈ (VEGraph.final task).edges := by
  refine ⟨initialize_constraints_isSome h task lp hne, ?_⟩
  intro op hop pre hpre eff heff
  exact task_edge_in_final task (pre, eff)
    ⟨op, hop, pre, hpre, eff, heff, hne op hop pre hpre eff heff, rfl⟩

theorem c3_witness :
    ((DeleteRelaxationConstraintsRR.init ⟨false, false⟩).initialize_constraints
      exTask1 lp0).isSome = true :=
  (c3_lookups_succeed_when_pre_neq_eff
    (DeleteRelaxationConstraintsRR.init ⟨false, false⟩) exTask1 lp0
    (by decide)).1

/-- C3 counterexample: `exTaskSelf` is a well-formed STRIPS task (one
operator whose precondition `(0,0)` equals its only effect), yet building
the constraints fails: family 6 looks up the edge `((0,0),(0,0))`, which
`construct_task_graph` never creates (it skips `pre = eff` pairs), so the
`lp_var_id_edge.at` lookup fails. -/
theorem c3_counterexample_self_effect_lookup_fails :
    ((DeleteRelaxationConstraintsRR.init ⟨false, false⟩).initialize_constraints
      exTaskSelf lp0).isSome = false := by
  unfold DeleteRelaxationConstraintsRR.initialize_constraints
  rw [final_eq_fuel exTaskSelf 10 (by decide)]
  decide

/-- C4 (amended): constraint family 7 emits one constraint per DIRECTED
edge `(i,j)` whose reverse `(j,i)` is present in the edge-variable map —
so an unordered pair with both directions present yields two rows and a
self-loop yields one row inserting its variable twice — and no row for an
edge whose reverse is absent: the output is exactly
`cons ++ edges.filterMap (family7_row m)`, and `family7_row` produces a
row precisely when the reverse edge is a key of the map. -/
theorem c4_family7_one_row_per_directed_edge (m : VarMaps)
    (edges : List (FactPair × FactPair)) (cons : List LPConstraint)
    (hcov : ∀ e ∈ edges, (assocFind m.lp_var_id_edge e).isSome = true) :
    family7_create m edges cons
      = some (cons ++ edges.filterMap (family7_row m)) ∧
    ∀ e ∈ edges, (family7_row m e).isSome
      = (assocFind m.lp_var_id_edge (e.2, e.1)).isSome :=
  ⟨family7_shape m edges cons hcov,
   fun e he => family7_row_isSome m e (hcov e he)⟩

theorem c4_witness :
    family7_create
      (⟨[], [], [((⟨0, 0⟩, ⟨1, 0⟩), 0), ((⟨1, 0⟩, ⟨0, 0⟩), 1)]⟩ : VarMaps)
      [(⟨0, 0⟩, ⟨1, 0⟩), (⟨1, 0⟩, ⟨0, 0⟩)] []
      = some ([] ++ [((⟨0, 0⟩ : FactPair), (⟨1, 0⟩ : FactPair)),
        (⟨1, 0⟩, ⟨0, 0⟩)].filterMap
        (family7_row (⟨[], [], [((⟨0, 0⟩, ⟨1, 0⟩), 0),
          ((⟨1, 0⟩, ⟨0, 0⟩), 1)]⟩ : VarMaps))) :=
  (c4_family7_one_row_per_directed_edge _ _ [] (by decide)).1

/-- C4 counterexample: on the two-operator cycle task the final graph's
edge list is `[((0,0),(1,0)), ((1,0),(0,0)), ((1,0),(1,0))]`; it has only
two unordered pairs with both directions present (`{(0,0),(1,0)}` and the
self-loop at `(1,0)`), yet family 7 emits three constraints — one per
directed edge — refuting "exactly one constraint per unordered pair". -/
theorem c4_counterexample_three_rows_on_two_cycle :
    (VEGraph.final exTaskCycle).edges
      = [(⟨0, 0⟩, ⟨1, 0⟩), (⟨1, 0⟩, ⟨0, 0⟩), (⟨1, 0⟩, ⟨1, 0⟩)] ∧
    (family7_create
      (create_auxiliary_variables exTaskCycle false []
        (VEGraph.final exTaskCycle)).1
      (VEGraph.final exTaskCycle).edges []).map List.length = some 3 := by
  constructor
  · rw [final_eq_fuel exTaskCycle 20 (by decide)]
    decide
  · rw [final_eq_fuel exTaskCycle 20 (by decide)]
    decide

/-- C5: provenance and delta-closure of the final graph: every edge of the
final edge set is an original task edge or carries a recorded delta
triple; every recorded delta triple `(i,j,k)` has its three edges
`(i,j)`, `(j,k)`, `(i,k)` in the final edge set and its middle fact
eliminated; consequently every `edge_order` lookup made by constraint
family 8 succeeds. -/
theorem c5_edge_provenance_and_delta_closure (task : STask) (b : Bool)
    (vars0 : List LPVariable) :
    (∀ e ∈ (VEGraph.final task).edges,
      task_edge task e ∨ ∃ v, (e.1, v, e.2) ∈ (VEGraph.final task).delta) ∧
    (∀ t ∈ (VEGraph.final task).delta,
      (t.1, t.2.1) ∈ (VEGraph.final task).edges ∧
      (t.2.1, t.2.2) ∈ (VEGraph.final task).edges ∧
      (t.1, t.2.2) ∈ (VEGraph.final task).edges ∧
      ((VEGraph.final task).get_node t.2.1).is_eliminated = true) ∧
    (∀ cons, (family8_create
      (create_auxiliary_variables task b vars0 (VEGraph.final task)).1
      (VEGraph.final task).delta cons).isSome = true) := by
  obtain ⟨hnd, hadj, hdelta, hprov⟩ := final_graph_inv task
  refine ⟨hprov, hdelta, fun cons => ?_⟩
  apply family8_isSome
  intro t ht
  obtain ⟨e1, e2, e3, _⟩ := hdelta t ht
  exact ⟨create_aux_edge_cov task b vars0 _ hnd _ e1,
    create_aux_edge_cov task b vars0 _ hnd _ e2,
    create_aux_edge_cov task b vars0 _ hnd _ e3⟩

theorem c5_witness :
    task_edge exTaskCycle ((⟨0, 0⟩ : FactPair), (⟨1, 0⟩ : FactPair)) ∨
    ∃ v, ((⟨0, 0⟩ : FactPair), v, (⟨1, 0⟩ : FactPair))
      ∈ (VEGraph.final exTaskCycle).delta :=
  (c5_edge_provenance_and_delta_closure exTaskCycle false []).1
    (⟨0, 0⟩, ⟨1, 0⟩) (by
      rw [final_eq_fuel exTaskCycle 20 (by decide)]
      decide)

/-- C6: `update_constraints` mutates nothing but bounds of family-2 rows:
the vars are untouched, the constraint count and every row's coefficient
list are unchanged, rows outside those addressed by the previous and
current state are untouched, and the per-row effect is exactly the
reset-then-set bound assignment of the last conjunct — a row whose fact
is in both states is written back to the same `[1,1]` bounds it already
had, so only rows whose "true in state" term changed end with changed
bounds. -/
theorem c6_update_constraints_frame (h : DeleteRelaxationConstraintsRR)
    (state : List FactPair) (s : LPSolverState) :
    (h.update_constraints state s).2.2.vars = s.vars ∧
    (h.update_constraints state s).2.2.constraints.length
      = s.constraints.length ∧
    (∀ j, ((h.update_constraints state s).2.2.constraints.getD j
      default).entries = (s.constraints.getD j default).entries) ∧
    (∀ j, j ∉ state.map h.get_constraint_id →
      j ∉ h.last_state.map h.get_constraint_id →
      (h.update_constraints state s).2.2.constraints.getD j default
        = s.constraints.getD j default) ∧
    (∀ j, (h.update_constraints state s).2.2.constraints.getD j default
      = if j ∈ state.map h.get_constraint_id ∧ j < s.constraints.length then
          { s.constraints.getD j default with
            lower_bound := .finite 1, upper_bound := .finite 1 }
        else if j ∈ h.last_state.map h.get_constraint_id
            ∧ j < s.constraints.length then
          { s.constraints.getD j default with
            lower_bound := .finite 0, upper_bound := .finite 0 }
        else s.constraints.getD j default) := by
  obtain ⟨hb, hh, hv, hlen, hp⟩ := update_constraints_spec h state s
  refine ⟨hv, hlen, fun j => ?_, fun j hj1 hj2 => ?_, hp⟩
  · rw [hp j]
    by_cases h1 : j ∈ state.map h.get_constraint_id
        ∧ j < s.constraints.length
    · rw [if_pos h1]
    · rw [if_neg h1]
      by_cases h2 : j ∈ h.last_state.map h.get_constraint_id
          ∧ j < s.constraints.length
      · rw [if_pos h2]
      · rw [if_neg h2]
  · rw [hp j, if_neg (fun hc => hj1 hc.1), if_neg (fun hc => hj2 hc.1)]

theorem c6_witness :
    ((DeleteRelaxationConstraintsRR.init ⟨false, false⟩).update_constraints
      [⟨0, 0⟩] ⟨[], [default, default]⟩).2.2.constraints.getD 1 default
      = ((⟨[], [default, default]⟩ : LPSolverState)).constraints.getD 1
        default :=
  (c6_update_constraints_frame (DeleteRelaxationConstraintsRR.init
    ⟨false, false⟩) [⟨0, 0⟩] ⟨[], [default, default]⟩).2.2.2.1 1 (by decide)
    (by decide)

/-- C7: resetting via a following call with the empty state returns every
family-2 row forced by the state back to bounds `[0,0]`, and a repeated
call with the same state is the identity on both the generator state and
the solver state (idempotence). -/
theorem c7_reset_roundtrip_and_idempotence (h : DeleteRelaxationConstraintsRR)
    (state : List FactPair) (s : LPSolverState) :
    (∀ f ∈ state,
      ((((h.update_constraints state s).2.1.update_constraints []
        (h.update_constraints state s).2.2).2.2.constraints.getD
          (h.get_constraint_id f) default).lower_bound = .finite 0) ∧
      ((((h.update_constraints state s).2.1.update_constraints []
        (h.update_constraints state s).2.2).2.2.constraints.getD
          (h.get_constraint_id f) default).upper_bound = .finite 0)) ∧
    ((h.update_constraints state s).2.1.update_constraints state
      (h.update_constraints state s).2.2
      = (false, (h.update_constraints state s).2.1,
        (h.update_constraints state s).2.2)) :=
  ⟨fun f hf => update_reset_bounds h state s f hf,
   update_idempotent h state s⟩

theorem c7_witness :
    ((((DeleteRelaxationConstraintsRR.init ⟨false, false⟩).update_constraints
      [⟨0, 0⟩] ⟨[], [default]⟩).2.1.update_constraints []
      ((DeleteRelaxationConstraintsRR.init ⟨false, false⟩).update_constraints
        [⟨0, 0⟩] ⟨[], [default]⟩).2.2).2.2.constraints.getD
        ((DeleteRelaxationConstraintsRR.init
          ⟨false, false⟩).get_constraint_id ⟨0, 0⟩) default).lower_bound
      = .finite 0 :=
  ((c7_reset_roundtrip_and_idempotence (DeleteRelaxationConstraintsRR.init
    ⟨false, false⟩) [⟨0, 0⟩] ⟨[], [default]⟩).1 ⟨0, 0⟩ (by decide)).1

/-- C8: constraint family 4 raises the lower bound of the `f_defined`
variable of every goal fact to 1 — pointwise, exactly the goal-variable
indices change, and only in their lower bound — and adds no constraint
row: inside `create_constraints` the vars component of the result is
exactly `family4_apply` of the input vars, a pure variable
transformation. -/
theorem c8_family4_bounds_no_rows (task : STask) (m : VarMaps)
    (vars : List LPVariable) (cons : List LPConstraint) (g : VEGraph) :
    ((family4_apply task m vars).length = vars.length) ∧
    (∀ i, (family4_apply task m vars).getD i default =
      if i ∈ task.goals.map (get_var_f_defined m) ∧ i < vars.length then
        { vars.getD i default with lower_bound := 1 }
      else vars.getD i default) ∧
    (∀ r, create_constraints task m vars cons g = some r →
      r.2.1 = family4_apply task m vars) := by
  refine ⟨?_, ?_, fun r hr => create_constraints_vars task m vars cons g r hr⟩
  · unfold family4_apply
    refine foldl_pres (fun (l : List LPVariable) => l.length = vars.length)
      _ ?_ task.goals _ rfl
    intro l goal hl
    show (l.set (get_var_f_defined m goal) _).length = vars.length
    rw [List.length_set]
    exact hl
  · intro i
    unfold family4_apply
    exact family4_pointwise m task.goals vars i

theorem c8_witness :
    ((create_constraints exTask1
      (create_auxiliary_variables exTask1 false []
        (fuel_result 10 exTask1).2).1
      (create_auxiliary_variables exTask1 false []
        (fuel_result 10 exTask1).2).2
      [] (fuel_result 10 exTask1).2).map (fun r => r.2.1))
      = some (family4_apply exTask1
        (create_auxiliary_variables exTask1 false []
          (fuel_result 10 exTask1).2).1
        (create_auxiliary_variables exTask1 false []
          (fuel_result 10 exTask1).2).2) := by
  rcases hx : create_constraints exTask1
      (create_auxiliary_variables exTask1 false []
        (fuel_result 10 exTask1).2).1
      (create_auxiliary_variables exTask1 false []
        (fuel_result 10 exTask1).2).2
      [] (fuel_result 10 exTask1).2 with _ | r
  · exact absurd hx (by decide)
  · simp only [Option.map_some']
    rw [(c8_family4_bounds_no_rows exTask1
      (create_auxiliary_variables exTask1 false []
        (fuel_result 10 exTask1).2).1
      (create_auxiliary_variables exTask1 false []
        (fuel_result 10 exTask1).2).2
      [] (fuel_result 10 exTask1).2).2.2 r hx]

/-- C9: the edge set never holds a duplicate pair — `add_edge` on an
existing pair is the identity, `add_edge` preserves `Nodup`, and the
final graph's edge list is `Nodup` — and after variable creation the
`edge_order` map is a bijection between edges and variables: its keys
are exactly the final edge list, in order, and its variable ids are
pairwise distinct. -/
theorem c9_edges_nodup_edge_vars_bijective (task : STask) (b : Bool)
    (vars0 : List LPVariable) :
    (∀ (g : VEGraph) (a c : FactPair), (a, c) ∈ g.edges →
      g.add_edge a c = g) ∧
    (∀ (g : VEGraph) (a c : FactPair), g.edges.Nodup →
      (g.add_edge a c).edges.Nodup) ∧
    (VEGraph.final task).edges.Nodup ∧
    ((create_auxiliary_variables task b vars0
      (VEGraph.final task)).1.lp_var_id_edge.map Prod.fst
      = (VEGraph.final task).edges) ∧
    ((create_auxiliary_variables task b vars0
      (VEGraph.final task)).1.lp_var_id_edge.map Prod.snd).Nodup := by
  have hnd : (VEGraph.final task).edges.Nodup := (final_graph_inv task).1
  obtain ⟨hk, hv⟩ := create_aux_edge_keys task b vars0 (VEGraph.final task) hnd
  refine ⟨fun g a c h => add_edge_eq_of_mem g a c h, ?_, hnd, hk, hv⟩
  intro g a c h
  by_cases hmem : (a, c) ∈ g.edges
  · rw [add_edge_eq_of_mem g a c hmem]
    exact h
  · rw [add_edge_edges_of_not_mem g a c hmem]
    exact nodup_append_singleton _ _ h hmem

theorem c9_witness :
    (ve_empty.add_edge ⟨0, 0⟩ ⟨1, 0⟩).edges.Nodup :=
  (c9_edges_nodup_edge_vars_bijective exTask1 false []).2.1 ve_empty
    ⟨0, 0⟩ ⟨1, 0⟩ (by decide)

/-- C10 (amended): the elimination loop of the `VEGraph` constructor
terminates for every task (by the lexicographic measure on non-eliminated
nodes, stale queue entries and queue length), and when it returns every
in-range fact node is eliminated and the queue is empty; stale entries
whose key differs from the node's current in-degree are discarded.
However a fact is NOT always popped-and-eliminated exactly once: it can
carry two queue entries with the same valid key and be processed twice
(see the counterexample). -/
theorem c10_terminates_all_eliminated (task : STask) :
    (∀ u, (VEGraph.final task).in_range u →
      ((VEGraph.final task).get_node u).is_eliminated = true) ∧
    (VEGraph.final task).elimination_queue = [] :=
  final_all_eliminated task

theorem c10_witness :
    ((VEGraph.final exTask1).get_node ⟨0, 0⟩).is_eliminated = true :=
  (c10_terminates_all_eliminated exTask1).1 ⟨0, 0⟩ (by
    rw [final_eq_fuel exTask1 10 (by decide)]
    decide)

/-- C10 counterexample: on the two-operator cycle task the pop trace of
the elimination loop returns fact `(1,0)` twice — both pops are valid
(the popped key equals the node's stored in-degree both times, via two
distinct queue entries carrying equal keys), so `eliminate` runs twice on
the same fact, refuting "eliminated exactly once". -/
theorem c10_counterexample_fact_popped_twice :
    (VEGraph.make exTaskCycle).1.count (⟨1, 0⟩ : FactPair) = 2 := by
  rw [make_eq_fuel exTaskCycle 20 (by decide)]
  decide

end DownwardRR